import Mathlib

/-!
# The linked-list queue of `queue.c`

A shallow embedding of `queue.c` over an explicit memory, followed by the
properties of its operations.

## The model

* Memory is three typed heaps (queue structures, list elements, character
  arrays), each a partial map from addresses to contents.  A pointer is an
  `Option Nat`, `none` being `NULL`.
* Every C function becomes a function on memories returning `Option`: `none`
  stands for a fault (dereferencing `NULL` or an address that is not allocated,
  releasing what is not allocated) or for a loop that ran out of fuel.  Every
  loop and the recursion of `mergeSort` take a fuel argument; the theorems show
  that fuel beyond the number of elements is enough, and that more fuel never
  changes a result.
* What `malloc` returns is an argument of the function calling it: `none` for a
  failed allocation, `some a` for the address handed out, which the theorems
  assume not to be in use.
* A C string is the list of its bytes before the terminator.  `strcmp` yields
  -1, 0 or 1, only its sign being used by the code.
* The caller's buffer of `q_remove_head` is a map from offsets to bytes, so that
  every byte the call writes can be observed, whatever capacity was announced.
  The subtraction `bufsize - 1` is done modulo `2 ^ 64`.
* The counter `size` is an unbounded integer.
-/

namespace Lab0

/-! ## Memory -/

/-- Modelled from the spec: `queue.h` is not among the sources.  A list element
owns a pointer to its character array and a link to the next element. -/
structure list_ele_t where
  value : Option Nat
  next : Option Nat
deriving DecidableEq

/-- Modelled from the spec: `queue.h` is not among the sources.  A queue has a
pointer to its first element, a pointer to its last element and a counter. -/
structure queue_t where
  head : Option Nat
  tail : Option Nat
  size : Int
deriving DecidableEq

/-- Memory: the allocated queue structures, list elements and character arrays. -/
structure Mem where
  queue : Nat → Option queue_t
  ele : Nat → Option list_ele_t
  str : Nat → Option (List Nat)

/-- Width of `size_t` arithmetic. -/
def SIZE_MOD : Nat := 2 ^ 64

/-- The statement `q->head = p`. -/
def Mem.setHead (m : Mem) (qa : Nat) (p : Option Nat) : Option Mem :=
  match m.queue qa with
  | none => none
  | some q => some ⟨Function.update m.queue qa (some ⟨p, q.tail, q.size⟩), m.ele, m.str⟩

/-- The statement `q->tail = p`. -/
def Mem.setTail (m : Mem) (qa : Nat) (p : Option Nat) : Option Mem :=
  match m.queue qa with
  | none => none
  | some q => some ⟨Function.update m.queue qa (some ⟨q.head, p, q.size⟩), m.ele, m.str⟩

/-- The statement `q->size = n`. -/
def Mem.setSize (m : Mem) (qa : Nat) (n : Int) : Option Mem :=
  match m.queue qa with
  | none => none
  | some q => some ⟨Function.update m.queue qa (some ⟨q.head, q.tail, n⟩), m.ele, m.str⟩

/-- The statement `a->next = p`. -/
def Mem.setNext (m : Mem) (a : Nat) (p : Option Nat) : Option Mem :=
  match m.ele a with
  | none => none
  | some e => some ⟨m.queue, Function.update m.ele a (some ⟨e.value, p⟩), m.str⟩

/-- The statement `a->value = p`. -/
def Mem.setValue (m : Mem) (a : Nat) (p : Option Nat) : Option Mem :=
  match m.ele a with
  | none => none
  | some e => some ⟨m.queue, Function.update m.ele a (some ⟨p, e.next⟩), m.str⟩

/-- The string a list element points to, `a->value` read as a C string. -/
def Mem.valueOf (m : Mem) (a : Nat) : Option (List Nat) :=
  match m.ele a with
  | none => none
  | some e =>
    match e.value with
    | none => none
    | some v => m.str v

/-- The pointer `a->value`. -/
def Mem.ptrOf (m : Mem) (a : Nat) : Option Nat :=
  (m.ele a).bind (fun e => e.value)

/-- Effect of `malloc(sizeof(queue_t))` returning `r`. -/
def malloc_queue (m : Mem) (r : Option Nat) : Mem :=
  match r with
  | none => m
  | some a => ⟨Function.update m.queue a (some ⟨none, none, 0⟩), m.ele, m.str⟩

/-- Effect of `malloc(sizeof(list_ele_t))` returning `r`. -/
def malloc_ele (m : Mem) (r : Option Nat) : Mem :=
  match r with
  | none => m
  | some a => ⟨m.queue, Function.update m.ele a (some ⟨none, none⟩), m.str⟩

/-- Effect of `malloc(n)` for a character array, returning `r`. -/
def malloc_str (m : Mem) (r : Option Nat) (_n : Nat) : Mem :=
  match r with
  | none => m
  | some a => ⟨m.queue, m.ele, Function.update m.str a (some [])⟩

/-- The call `free(p)` on a queue structure. -/
def free_queue (m : Mem) (p : Option Nat) : Option Mem :=
  match p with
  | none => some m
  | some a =>
    match m.queue a with
    | none => none
    | some _ => some ⟨Function.update m.queue a none, m.ele, m.str⟩

/-- The call `free(p)` on a list element. -/
def free_ele (m : Mem) (p : Option Nat) : Option Mem :=
  match p with
  | none => some m
  | some a =>
    match m.ele a with
    | none => none
    | some _ => some ⟨m.queue, Function.update m.ele a none, m.str⟩

/-- The call `free(p)` on a character array. -/
def free_str (m : Mem) (p : Option Nat) : Option Mem :=
  match p with
  | none => some m
  | some a =>
    match m.str a with
    | none => none
    | some _ => some ⟨m.queue, m.ele, Function.update m.str a none⟩

/-! ## Library functions -/

/-- The library function `strlen`. -/
def strlen (s : List Nat) : Nat := s.length

/-- The library function `strcmp`: byte-wise lexicographic comparison, negative,
zero or positive. -/
def strcmp : List Nat → List Nat → Int
  | [], [] => 0
  | [], _ :: _ => -1
  | _ :: _, [] => 1
  | a :: as, b :: bs => if a < b then -1 else if b < a then 1 else strcmp as bs

/-- The call `strncpy(dst, s, n)` into the character array at `dst`. -/
def strncpy (m : Mem) (dst : Nat) (s : List Nat) (n : Nat) : Option Mem :=
  match m.str dst with
  | none => none
  | some _ =>
    if strlen s < n then some ⟨m.queue, m.ele, Function.update m.str dst (some s)⟩
    else none

/-- The call `memcpy(sp, src, n)` into a caller's buffer, seen as a map from
offsets to bytes; `src` is a stored string, whose terminator is a zero byte. -/
def memcpy (buf : Nat → Nat) (src : List Nat) (n : Nat) : Nat → Nat :=
  fun i => if i < n then src.getD i 0 else buf i

/-! ## The functions of `queue.c` -/

/-- `q_new`: the allocator returns `r`. -/
def q_new (m : Mem) (r : Option Nat) : Option (Option Nat × Mem) :=
  let m := malloc_queue m r
  match r with
  | none => some (r, m)
  | some a => do
    let m ← m.setHead a none
    let m ← m.setTail a none
    let m ← m.setSize a 0
    some (r, m)

/-- `q_insert_head`: `newh` and `news` are what the two `malloc` calls return. -/
def q_insert_head (m : Mem) (q : Option Nat) (s : List Nat) (newh news : Option Nat) :
    Option (Bool × Mem) :=
  match q with
  | none => some (false, m)
  | some qa =>
    let slength := strlen s + 1
    let m := malloc_ele m newh
    let m := malloc_str m news slength
    match newh, news with
    | some h, some b => do
      let q0 ← m.queue qa
      let m ← m.setNext h q0.head
      let m ← strncpy m b s slength
      let m ← m.setHead qa newh
      let q1 ← m.queue qa
      let hd ← q1.head
      let m ← m.setValue hd news
      let m ← m.setSize qa (q1.size + 1)
      let q2 ← m.queue qa
      if q2.size = 1 then do
        let m ← m.setTail qa q2.head
        let q3 ← m.queue qa
        let t ← q3.tail
        let m ← m.setNext t none
        some (true, m)
      else
        some (true, m)
    | _, _ => do
      let m ← free_ele m newh
      let m ← free_str m news
      some (false, m)

/-- `q_insert_tail`: `newt` and `news` are what the two `malloc` calls return. -/
def q_insert_tail (m : Mem) (q : Option Nat) (s : List Nat) (newt news : Option Nat) :
    Option (Bool × Mem) :=
  match q with
  | none => some (false, m)
  | some qa =>
    let slength := strlen s + 1
    let m := malloc_ele m newt
    let m := malloc_str m news slength
    match newt, news with
    | some t, some b => do
      let m ← strncpy m b s slength
      let m ← m.setValue t news
      let q0 ← m.queue qa
      let m ← (match q0.tail with
        | some ot => m.setNext ot newt
        | none => m.setHead qa newt)
      let m ← m.setTail qa newt
      let q1 ← m.queue qa
      let m ← m.setSize qa (q1.size + 1)
      let q2 ← m.queue qa
      let tl ← q2.tail
      let m ← m.setNext tl none
      some (true, m)
    | _, _ => do
      let m ← free_ele m newt
      let m ← free_str m news
      some (false, m)

/-- `q_remove_head`: `sp` is the caller's buffer (a map from offsets to bytes)
or `none` for `NULL`; the buffer after the call is returned with the result. -/
def q_remove_head (m : Mem) (q : Option Nat) (sp : Option (Nat → Nat)) (bufsize : Nat) :
    Option (Bool × Mem × Option (Nat → Nat)) :=
  match q with
  | none => some (false, m, sp)
  | some qa => do
    let q0 ← m.queue qa
    match q0.head with
    | none => some (false, m, sp)
    | some h => do
      let sp1 ← (match sp with
        | none => some none
        | some buf => do
          let v ← m.valueOf h
          let val_len := strlen v
          let realcpy :=
            if (bufsize + SIZE_MOD - 1) % SIZE_MOD > val_len then val_len
            else (bufsize + SIZE_MOD - 1) % SIZE_MOD
          let buf := memcpy buf v realcpy
          some (some (Function.update buf realcpy 0)))
      let tmp_head := h
      let he ← m.ele h
      let m ← m.setHead qa he.next
      let te ← m.ele tmp_head
      let m ← free_str m te.value
      let m ← free_ele m (some tmp_head)
      let q1 ← m.queue qa
      let m ← m.setSize qa (q1.size - 1)
      let q2 ← m.queue qa
      if q2.size = 0 then do
        let m ← m.setTail qa none
        some (true, m, sp1)
      else
        some (true, m, sp1)

/-- `q_size`. -/
def q_size (m : Mem) (q : Option Nat) : Option Int :=
  match q with
  | none => some 0
  | some qa => do
    let q0 ← m.queue qa
    some q0.size

/-- The `while (next)` loop of `q_reverse`; returns the memory with the final
`prev` and `curr`. -/
def q_reverse_loop : Nat → Mem → Option Nat → Nat → Option Nat →
    Option (Mem × Option Nat × Nat)
  | 0, _, _, _, _ => none
  | fuel + 1, m, prev, curr, next =>
    match next with
    | none => some (m, prev, curr)
    | some n => do
      let m ← m.setNext curr prev
      let ne ← m.ele n
      q_reverse_loop fuel m (some curr) n ne.next

/-- `q_reverse`. -/
def q_reverse (fuel : Nat) (m : Mem) (q : Option Nat) : Option Mem :=
  match q with
  | none => some m
  | some qa => do
    let q0 ← m.queue qa
    match q0.head with
    | none => some m
    | some h => do
      let m ← m.setTail qa q0.head
      let he ← m.ele h
      let r ← q_reverse_loop fuel m none h he.next
      let m ← r.1.setHead qa (some r.2.2)
      m.setNext r.2.2 r.2.1

/-- The `while (left && right)` loop of `merge`. -/
def merge_loop : Nat → Mem → Option Nat → Option Nat → Option Mem
  | 0, _, _, _ => none
  | fuel + 1, m, left, right =>
    match left, right with
    | some l, some r => do
      let lv ← m.valueOf l
      let rv ← m.valueOf r
      if strcmp lv rv < 0 then do
        let le ← m.ele l
        let tmp := le.next
        let m ← (match tmp with
          | some t => do
            let tv ← m.valueOf t
            m.setNext l (if strcmp tv rv < 0 then le.next else right)
          | none => m.setNext l right)
        merge_loop fuel m tmp right
      else do
        let re ← m.ele r
        let tmp := re.next
        let m ← (match tmp with
          | some t => do
            let tv ← m.valueOf t
            m.setNext r (if strcmp tv lv ≤ 0 then re.next else left)
          | none => m.setNext r left)
        merge_loop fuel m left tmp
    | _, _ => some m

/-- `merge`: returns the memory and the head of the merged chain. -/
def merge (fuel : Nat) (m : Mem) (left right : Option Nat) : Option (Mem × Option Nat) :=
  match left, right with
  | none, _ => some (m, right)
  | some _, none => some (m, left)
  | some l, some r => do
    let lv ← m.valueOf l
    let rv ← m.valueOf r
    let head := if strcmp lv rv < 0 then left else right
    let m ← merge_loop fuel m left right
    some (m, head)

/-- The slow/fast walk of `mergeSort`; returns the final `singlePtr`. -/
def split_loop : Nat → Mem → Option Nat → Option Nat → Option (Option Nat)
  | 0, _, _, _ => none
  | fuel + 1, m, singlePtr, doublePtr =>
    match doublePtr with
    | none => some singlePtr
    | some d => do
      let de ← m.ele d
      match de.next with
      | none => some singlePtr
      | some dn => do
        let sa ← singlePtr
        let se ← m.ele sa
        let dne ← m.ele dn
        split_loop fuel m se.next dne.next

/-- `mergeSort`: returns the memory and the head of the sorted chain. -/
def mergeSort : Nat → Mem → Option Nat → Option (Mem × Option Nat)
  | 0, _, _ => none
  | fuel + 1, m, head =>
    match head with
    | none => some (m, head)
    | some h => do
      let he ← m.ele h
      match he.next with
      | none => some (m, head)
      | some _ => do
        let singlePtr ← split_loop (fuel + 1) m head he.next
        let sa ← singlePtr
        let se ← m.ele sa
        let doublePtr := se.next
        let m ← m.setNext sa none
        let r1 ← mergeSort fuel m head
        let r2 ← mergeSort fuel r1.1 doublePtr
        merge (fuel + 1) r2.1 r1.2 r2.2

/-- The split step of `mergeSort` on a chain of two elements or more: the
statements from the slow/fast walk to the cut `singlePtr->next = NULL`.  Returns
the memory with the heads of the left and of the right sub-chain. -/
def mergeSort_split (fuel : Nat) (m : Mem) (head : Option Nat) :
    Option (Mem × Option Nat × Option Nat) := do
  let h ← head
  let he ← m.ele h
  let singlePtr ← split_loop fuel m head he.next
  let sa ← singlePtr
  let se ← m.ele sa
  let doublePtr := se.next
  let m ← m.setNext sa none
  some (m, head, doublePtr)

/-- The loop `while (q->tail->next) q->tail = q->tail->next` of `q_sort`. -/
def q_sort_tail_loop : Nat → Mem → Nat → Option Mem
  | 0, _, _ => none
  | fuel + 1, m, qa => do
    let q0 ← m.queue qa
    let t ← q0.tail
    let te ← m.ele t
    match te.next with
    | none => some m
    | some _ => do
      let m ← m.setTail qa te.next
      q_sort_tail_loop fuel m qa

/-- `q_sort`. -/
def q_sort (fuel : Nat) (m : Mem) (q : Option Nat) : Option Mem :=
  match q with
  | none => some m
  | some qa => do
    let q0 ← m.queue qa
    if q0.head.isSome ∧ q0.size > 1 then do
      let r ← mergeSort fuel m q0.head
      let m ← r.1.setHead qa r.2
      q_sort_tail_loop fuel m qa
    else
      some m

/-- The `while (tmp)` loop of `q_free`. -/
def q_free_loop : Nat → Mem → Nat → Option Nat → Option Mem
  | 0, _, _, _ => none
  | fuel + 1, m, qa, tmp =>
    match tmp with
    | none => some m
    | some t => do
      let q0 ← m.queue qa
      let h ← q0.head
      let he ← m.ele h
      let m ← m.setHead qa he.next
      let te ← m.ele t
      let m ← free_str m te.value
      let m ← free_ele m tmp
      let q1 ← m.queue qa
      q_free_loop fuel m qa q1.head

/-- `q_free`. -/
def q_free (fuel : Nat) (m : Mem) (q : Option Nat) : Option Mem :=
  match q with
  | none => some m
  | some qa => do
    let q0 ← m.queue qa
    let m ← q_free_loop fuel m qa q0.head
    free_queue m q

/-! ## Chains and the queue invariant -/

/-- The list elements met when following `next` from `p` up to, not including,
the pointer `r` are exactly `as`, in this order. -/
def Seg (ele : Nat → Option list_ele_t) : Option Nat → List Nat → Option Nat → Prop
  | p, [], r => p = r
  | p, a :: as, r => p = some a ∧ ∃ e, ele a = some e ∧ Seg ele e.next as r

/-- A chain: a segment ending with the terminal link. -/
abbrev Chain (ele : Nat → Option list_ele_t) (p : Option Nat) (as : List Nat) : Prop :=
  Seg ele p as none

/-- The data-model invariants of the queue at address `qa`: its chain is
`nodes`, holding the strings `vals`; `tail` is the last element, `size` the
number of elements, and every element owns a character array of its own. -/
structure Inv (m : Mem) (qa : Nat) (nodes : List Nat) (vals : List (List Nat)) : Prop where
  chain : ∃ q, m.queue qa = some q ∧ Chain m.ele q.head nodes ∧
    q.tail = nodes.getLast? ∧ q.size = nodes.length
  values : nodes.map m.valueOf = vals.map some
  owned : (nodes.map m.ptrOf).Nodup

/-- The number of bytes `q_remove_head` copies with `memcpy`: `bufsize - 1` in
`size_t` arithmetic, capped by the length of the string. -/
def realcpy (bufsize val_len : Nat) : Nat :=
  if (bufsize + SIZE_MOD - 1) % SIZE_MOD > val_len then val_len
  else (bufsize + SIZE_MOD - 1) % SIZE_MOD

/-- The caller's buffer after `q_remove_head` copied the string `v` out. -/
def bufAfter (buf : Nat → Nat) (v : List Nat) (bufsize : Nat) : Nat → Nat :=
  Function.update (memcpy buf v (realcpy bufsize (strlen v))) (realcpy bufsize (strlen v)) 0

/-- A memory holding nothing but an empty queue at address 0. -/
def memNew : Mem :=
  ⟨fun a => if a = 0 then some ⟨none, none, 0⟩ else none, fun _ => none, fun _ => none⟩

/-- A memory holding at address 0 the queue of the strings "b", "a", "c" (the
bytes 98, 97, 99), on the list elements 1, 2, 3 with character arrays 11, 12, 13. -/
def memBAC : Mem :=
  ⟨fun a => if a = 0 then some ⟨some 1, some 3, 3⟩ else none,
   fun a => if a = 1 then some ⟨some 11, some 2⟩ else if a = 2 then some ⟨some 12, some 3⟩
     else if a = 3 then some ⟨some 13, none⟩ else none,
   fun a => if a = 11 then some [98] else if a = 12 then some [97]
     else if a = 13 then some [99] else none⟩

/-- The string of a list element, empty when it has none. -/
def Mem.valD (m : Mem) (a : Nat) : List Nat := (m.valueOf a).getD []

/-- The list elements of `m1` hold the strings they hold in `m`: same character
arrays and same `value` pointers; `next` links and queue structures may differ. -/
structure SameValues (m m1 : Mem) : Prop where
  str : m1.str = m.str
  ptr : ∀ x, m1.ptrOf x = m.ptrOf x

/-- The merge of two lists of list elements as `merge` performs it: the left
element goes first when its string compares below the right one, the right
element otherwise; `k` gives the string of an element. -/
def mergeL (k : Nat → List Nat) : List Nat → List Nat → List Nat
  | [], rs => rs
  | l :: ls, [] => l :: ls
  | l :: ls, r :: rs =>
    if strcmp (k l) (k r) < 0 then l :: mergeL k ls (r :: rs)
    else r :: mergeL k (l :: ls) rs
termination_by ls rs => ls.length + rs.length

/-- Non-decreasing order of strings under `strcmp`. -/
def StrSorted (vals : List (List Nat)) : Prop :=
  vals.Pairwise (fun a b => strcmp a b ≤ 0)

/-- What `malloc` may return for a list element: `NULL`, or an address not in use. -/
def FreshEle (m : Mem) (r : Option Nat) : Prop := ∀ a, r = some a → m.ele a = none

/-- What `malloc` may return for a character array: `NULL`, or an address not in use. -/
def FreshStr (m : Mem) (r : Option Nat) : Prop := ∀ b, r = some b → m.str b = none

/-- The memories reachable from `q_new` for the queue at `qa` by calls of
`q_insert_head`, `q_insert_tail`, `q_remove_head`, `q_reverse` and `q_sort` that
return, whatever they return. -/
inductive Reachable (qa : Nat) : Mem → Prop
  | new (m0 m : Mem) : q_new m0 (some qa) = some (some qa, m) → Reachable qa m
  | insert_head (m m1 : Mem) (s : List Nat) (newh news : Option Nat) (r : Bool) :
      Reachable qa m → FreshEle m newh → FreshStr m news →
      q_insert_head m (some qa) s newh news = some (r, m1) → Reachable qa m1
  | insert_tail (m m1 : Mem) (s : List Nat) (newt news : Option Nat) (r : Bool) :
      Reachable qa m → FreshEle m newt → FreshStr m news →
      q_insert_tail m (some qa) s newt news = some (r, m1) → Reachable qa m1
  | remove_head (m m1 : Mem) (sp sp1 : Option (Nat → Nat)) (k : Nat) (r : Bool) :
      Reachable qa m → q_remove_head m (some qa) sp k = some (r, m1, sp1) → Reachable qa m1
  | reverse (m m1 : Mem) (fuel : Nat) :
      Reachable qa m → q_reverse fuel m (some qa) = some m1 → Reachable qa m1
  | sort (m m1 : Mem) (fuel : Nat) :
      Reachable qa m → q_sort fuel m (some qa) = some m1 → Reachable qa m1

/-- A memory holding nothing. -/
def memEmpty : Mem := ⟨fun _ => none, fun _ => none, fun _ => none⟩

/-- The memory after `q_new` on the empty memory, the allocator returning address 0. -/
def memFirst : Mem :=
  ⟨Function.update (fun _ => none) 0 (some ⟨none, none, 0⟩), fun _ => none, fun _ => none⟩

/-- The memory after a further `q_insert_tail` of the string "b", the allocator
returning the addresses 1 and 11. -/
def memSecond : Mem :=
  ((q_insert_tail memFirst (some 0) [98] (some 1) (some 11)).map (fun r => r.2)).getD memFirst

/-- The memory `memBAC` with two more list elements, 4 and 5, each a chain of its
own holding the string "a" (the byte 97), in the character arrays 14 and 15. -/
def memTie : Mem :=
  ⟨memBAC.queue,
   fun a => if a = 4 then some ⟨some 14, none⟩ else if a = 5 then some ⟨some 15, none⟩
     else memBAC.ele a,
   fun a => if a = 14 then some [97] else if a = 15 then some [97] else memBAC.str a⟩

/-! ## Facts about chains -/

theorem Seg_frame {ele ele1 : Nat → Option list_ele_t} {as : List Nat} {p r : Option Nat}
    (h : Seg ele p as r) (hf : ∀ a ∈ as, ele1 a = ele a) : Seg ele1 p as r := by
  induction as generalizing p with
  | nil => exact h
  | cons a as ih =>
    obtain ⟨hp, e, he, hs⟩ := h
    refine ⟨hp, e, ?_, ih hs (fun x hx => hf x (List.mem_cons_of_mem _ hx))⟩
    rw [hf a (List.mem_cons_self _ _), he]

theorem Seg_append {ele : Nat → Option list_ele_t} {as bs : List Nat} {p r : Option Nat} :
    Seg ele p (as ++ bs) r ↔ ∃ mid, Seg ele p as mid ∧ Seg ele mid bs r := by
  induction as generalizing p with
  | nil => simp [Seg]
  | cons a as ih =>
    constructor
    · rintro ⟨hp, e, he, hs⟩
      obtain ⟨mid, h1, h2⟩ := ih.mp hs
      exact ⟨mid, ⟨hp, e, he, h1⟩, h2⟩
    · rintro ⟨mid, ⟨hp, e, he, h1⟩, h2⟩
      exact ⟨hp, e, he, ih.mpr ⟨mid, h1, h2⟩⟩

theorem Chain_functional {ele : Nat → Option list_ele_t} {as bs : List Nat} {p : Option Nat}
    (h1 : Chain ele p as) (h2 : Chain ele p bs) : as = bs := by
  induction as generalizing p bs with
  | nil =>
    cases bs with
    | nil => rfl
    | cons b bs =>
      simp only [Chain, Seg] at h1 h2
      rw [h1] at h2
      exact absurd h2.1 (by simp)
  | cons a as ih =>
    cases bs with
    | nil =>
      simp only [Chain, Seg] at h1 h2
      rw [h2] at h1
      exact absurd h1.1 (by simp)
    | cons b bs =>
      obtain ⟨hp1, e1, he1, hs1⟩ := h1
      obtain ⟨hp2, e2, he2, hs2⟩ := h2
      rw [hp1] at hp2
      cases hp2
      rw [he1] at he2
      cases he2
      rw [ih hs1 hs2]

theorem Chain_nodup {ele : Nat → Option list_ele_t} {as : List Nat} {p : Option Nat}
    (h : Chain ele p as) : as.Nodup := by
  induction as generalizing p with
  | nil => exact List.nodup_nil
  | cons a as ih =>
    obtain ⟨hp, e, he, hs⟩ := h
    refine List.nodup_cons.mpr ⟨?_, ih hs⟩
    intro hmem
    obtain ⟨l1, l2, hl⟩ := List.append_of_mem hmem
    rw [hl] at hs
    obtain ⟨mid, _, h2⟩ := Seg_append.mp hs
    have h3 : Chain ele (some a) (a :: l2) := by
      obtain ⟨hm, e2, he2, hs2⟩ := h2
      exact ⟨rfl, e2, he2, hs2⟩
    have h4 : Chain ele (some a) (a :: (l1 ++ a :: l2)) := ⟨rfl, e, he, hs⟩
    have h5 := Chain_functional h3 h4
    have h6 := congrArg List.length h5
    simp at h6
    omega

theorem Seg_alloc {ele : Nat → Option list_ele_t} {as : List Nat} {p r : Option Nat}
    (h : Seg ele p as r) {a : Nat} (ha : a ∈ as) : ∃ e, ele a = some e := by
  induction as generalizing p with
  | nil => cases ha
  | cons x as ih =>
    obtain ⟨_, e, he, hs⟩ := h
    rcases List.mem_cons.mp ha with rfl | hmem
    · exact ⟨e, he⟩
    · exact ih hs hmem

/-! ## Facts about the invariant -/

theorem valueOf_eq (m : Mem) (x : Nat) : m.valueOf x = (m.ptrOf x).bind m.str := by
  unfold Mem.valueOf Mem.ptrOf
  cases m.ele x with
  | none => rfl
  | some e =>
    cases hv : e.value with
    | none => simp [hv]
    | some v => simp [hv]

theorem Inv.value_alloc {m : Mem} {qa : Nat} {nodes : List Nat} {vals : List (List Nat)}
    (hinv : Inv m qa nodes vals) {x : Nat} (hx : x ∈ nodes) :
    ∃ e v s, m.ele x = some e ∧ e.value = some v ∧ m.str v = some s ∧
      m.ptrOf x = some v ∧ m.valueOf x = some s := by
  have h1 : m.valueOf x ∈ nodes.map m.valueOf := List.mem_map_of_mem _ hx
  rw [hinv.values] at h1
  obtain ⟨s, _, hs⟩ := List.mem_map.mp h1
  have hs2 := hs
  cases he : m.ele x with
  | none => simp [Mem.valueOf, he] at hs
  | some e =>
    cases hv : e.value with
    | none => simp [Mem.valueOf, he, hv] at hs
    | some v =>
      simp only [Mem.valueOf, he, hv] at hs
      exact ⟨e, v, s, rfl, hv, hs.symm, by simp [Mem.ptrOf, he, hv], hs2.symm⟩

theorem valueOf_frame {m m1 : Mem} {x : Nat} (hp : m1.ptrOf x = m.ptrOf x)
    (hs : ∀ v, m.ptrOf x = some v → m1.str v = m.str v) : m1.valueOf x = m.valueOf x := by
  rw [valueOf_eq, valueOf_eq, hp]
  cases h : m.ptrOf x with
  | none => rfl
  | some v => simp [hs v h]

theorem ptrOf_frame {m m1 : Mem} {x : Nat} (he : m1.ele x = m.ele x) :
    m1.ptrOf x = m.ptrOf x := by
  simp [Mem.ptrOf, he]

/-- Linking a fresh element with a fresh character array in front of the chain
keeps the invariant, for the longer sequence. -/
theorem Inv_cons {m : Mem} (m1 : Mem) (q1 : queue_t) {qa : Nat} {nodes : List Nat}
    {vals : List (List Nat)} (hinv : Inv m qa nodes vals) {q : queue_t}
    (hq : m.queue qa = some q)
    {a b : Nat} {s : List Nat} (ha : m.ele a = none) (hb : m.str b = none)
    (hq1 : m1.queue qa = some q1) (hh : q1.head = some a)
    (ht : q1.tail = (a :: nodes).getLast?) (hs : q1.size = q.size + 1)
    (he : m1.ele = Function.update m.ele a (some ⟨some b, q.head⟩))
    (hstr : m1.str = Function.update m.str b (some s)) :
    Inv m1 qa (a :: nodes) (s :: vals) ∧
      ∀ x ∈ nodes, m1.ele x = m.ele x ∧ m1.valueOf x = m.valueOf x := by
  obtain ⟨q0, hq0, hch, _, hsize⟩ := hinv.chain
  rw [hq] at hq0
  cases hq0
  have hne : ∀ x ∈ nodes, x ≠ a := by
    intro x hx hxa
    obtain ⟨e, hex⟩ := Seg_alloc hch hx
    rw [hxa, ha] at hex
    cases hex
  have hele : ∀ x ∈ nodes, m1.ele x = m.ele x := by
    intro x hx
    rw [he, Function.update_noteq (hne x hx)]
  have hpne : ∀ x ∈ nodes, m.ptrOf x ≠ some b := by
    intro x hx hp
    obtain ⟨e, v, t, _, _, h3, h4, _⟩ := hinv.value_alloc hx
    rw [h4] at hp
    cases hp
    rw [hb] at h3
    cases h3
  have hptr : ∀ x ∈ nodes, m1.ptrOf x = m.ptrOf x := fun x hx => ptrOf_frame (hele x hx)
  have hval : ∀ x ∈ nodes, m1.valueOf x = m.valueOf x := by
    intro x hx
    refine valueOf_frame (hptr x hx) (fun v hv => ?_)
    rw [hstr, Function.update_noteq]
    rintro rfl
    exact hpne x hx hv
  have hpa : m1.ptrOf a = some b := by simp [Mem.ptrOf, he]
  refine ⟨⟨⟨q1, hq1, ?_, ht, ?_⟩, ?_, ?_⟩, fun x hx => ⟨hele x hx, hval x hx⟩⟩
  · rw [hh]
    refine ⟨rfl, ⟨some b, q.head⟩, by simp [he], Seg_frame hch hele⟩
  · rw [hs, hsize]
    simp
  · have : m1.valueOf a = some s := by simp [Mem.valueOf, he, hstr]
    simp only [List.map_cons, this, List.map_congr_left hval, hinv.values]
  · simp only [List.map_cons, List.map_congr_left hptr, hpa]
    refine List.nodup_cons.mpr ⟨?_, hinv.owned⟩
    intro hmem
    obtain ⟨x, hx, hxb⟩ := List.mem_map.mp hmem
    exact hpne x hx hxb

/-- Linking a fresh element with a fresh character array behind the last element
keeps the invariant, for the longer sequence. -/
theorem Inv_snoc {m m1 : Mem} {qa : Nat} {init : List Nat} {t : Nat} {vals : List (List Nat)}
    (hinv : Inv m qa (init ++ [t]) vals) {q q1 : queue_t} (hq : m.queue qa = some q)
    {et : list_ele_t} (het : m.ele t = some et)
    {a b : Nat} {s : List Nat} (ha : m.ele a = none) (hb : m.str b = none)
    (hq1 : m1.queue qa = some q1) (hh : q1.head = q.head)
    (ht : q1.tail = some a) (hs : q1.size = q.size + 1)
    (hea : m1.ele a = some ⟨some b, none⟩) (het1 : m1.ele t = some ⟨et.value, some a⟩)
    (he : ∀ x, x ≠ a → x ≠ t → m1.ele x = m.ele x)
    (hstr : m1.str = Function.update m.str b (some s)) :
    Inv m1 qa (init ++ [t] ++ [a]) (vals ++ [s]) ∧
      ∀ x ∈ init ++ [t], m1.ptrOf x = m.ptrOf x ∧ m1.valueOf x = m.valueOf x := by
  obtain ⟨q0, hq0, hch, _, hsize⟩ := hinv.chain
  rw [hq] at hq0
  cases hq0
  have hnd := Chain_nodup hch
  have hne : ∀ x ∈ init ++ [t], x ≠ a := by
    intro x hx hxa
    obtain ⟨e, hex⟩ := Seg_alloc hch hx
    rw [hxa, ha] at hex
    cases hex
  have hta : t ≠ a := hne t (by simp)
  have hti : t ∉ init := by
    intro h
    have := List.nodup_append.mp hnd
    exact this.2.2 h (List.mem_singleton_self t) 
  have hptr : ∀ x ∈ init ++ [t], m1.ptrOf x = m.ptrOf x := by
    intro x hx
    by_cases hxt : x = t
    · subst hxt
      simp [Mem.ptrOf, het, het1]
    · exact ptrOf_frame (he x (hne x hx) hxt)
  have hpne : ∀ x ∈ init ++ [t], m.ptrOf x ≠ some b := by
    intro x hx hp
    obtain ⟨e, v, u, _, _, h3, h4, _⟩ := hinv.value_alloc hx
    rw [h4] at hp
    cases hp
    rw [hb] at h3
    cases h3
  have hval : ∀ x ∈ init ++ [t], m1.valueOf x = m.valueOf x := by
    intro x hx
    refine valueOf_frame (hptr x hx) (fun v hv => ?_)
    rw [hstr, Function.update_noteq]
    rintro rfl
    exact hpne x hx hv
  have hpa : m1.ptrOf a = some b := by simp [Mem.ptrOf, hea]
  obtain ⟨mid, hseg1, hseg2⟩ := Seg_append.mp hch
  obtain ⟨hmid, et2, het2, hnx⟩ := hseg2
  refine ⟨⟨⟨q1, hq1, ?_, ?_, ?_⟩, ?_, ?_⟩, fun x hx => ⟨hptr x hx, hval x hx⟩⟩
  · rw [hh, List.append_assoc]
    refine Seg_append.mpr ⟨mid, Seg_frame hseg1 (fun x hx => he x (hne x (by simp [hx])) ?_), ?_⟩
    · rintro rfl
      exact hti hx
    · exact ⟨hmid, _, het1, rfl, _, hea, rfl⟩
  · rw [ht, List.getLast?_concat]
  · rw [hs, hsize]
    simp only [List.length_append, List.length_cons, List.length_nil]
    push_cast
    ring
  · have : m1.valueOf a = some s := by simp [Mem.valueOf, hea, hstr]
    rw [List.map_append, List.map_congr_left hval, hinv.values, List.map_append]
    simp [this]
  · rw [List.map_append, List.map_congr_left hptr]
    simp only [List.map_cons, List.map_nil, hpa]
    refine List.nodup_append.mpr ⟨hinv.owned, List.nodup_singleton _, ?_⟩
    intro p hp1 hp2
    rw [List.mem_singleton] at hp2
    obtain ⟨x, hx, hxb⟩ := List.mem_map.mp hp1
    exact hpne x hx (hxb.trans hp2)

/-- Unlinking and releasing the first element and its character array keeps the
invariant, for the shorter sequence. -/
theorem Inv_tail {m m1 : Mem} {qa x : Nat} {rest : List Nat} {v : List Nat}
    {vals : List (List Nat)} (hinv : Inv m qa (x :: rest) (v :: vals))
    {q q1 : queue_t} (hq : m.queue qa = some q)
    {e : list_ele_t} {pv : Nat} (he : m.ele x = some e) (hv : e.value = some pv)
    (hq1 : m1.queue qa = some q1) (hh : q1.head = e.next)
    (ht : q1.tail = rest.getLast?) (hs : q1.size = q.size - 1)
    (hele : m1.ele = Function.update m.ele x none)
    (hstr : m1.str = Function.update m.str pv none) :
    Inv m1 qa rest vals := by
  obtain ⟨q0, hq0, hch, _, hsize⟩ := hinv.chain
  rw [hq] at hq0
  cases hq0
  have hnd := List.nodup_cons.mp (Chain_nodup hch)
  obtain ⟨_, e2, he2, hch2⟩ := hch
  rw [he] at he2
  cases he2
  have hne : ∀ y ∈ rest, y ≠ x := by
    rintro y hy rfl
    exact hnd.1 hy
  have hel : ∀ y ∈ rest, m1.ele y = m.ele y := by
    intro y hy
    rw [hele, Function.update_noteq (hne y hy)]
  have hptr : ∀ y ∈ rest, m1.ptrOf y = m.ptrOf y := fun y hy => ptrOf_frame (hel y hy)
  have hown := hinv.owned
  rw [List.map_cons, List.nodup_cons] at hown
  have hpx : m.ptrOf x = some pv := by simp [Mem.ptrOf, he, hv]
  have hval : ∀ y ∈ rest, m1.valueOf y = m.valueOf y := by
    intro y hy
    refine valueOf_frame (hptr y hy) (fun w hw => ?_)
    rw [hstr, Function.update_noteq]
    rintro rfl
    exact hown.1 (by rw [hpx, ← hw]; exact List.mem_map_of_mem _ hy)
  have hvals := hinv.values
  simp only [List.map_cons, List.cons.injEq] at hvals
  refine ⟨⟨q1, hq1, ?_, ht, ?_⟩, ?_, ?_⟩
  · rw [hh]
    exact Seg_frame hch2 hel
  · rw [hs, hsize]
    simp
  · rw [List.map_congr_left hval, hvals.2]
  · rw [List.map_congr_left hptr]
    exact hown.2

/-! ## The straight-line operations -/

theorem q_insert_head_run {m : Mem} {qa : Nat} {nodes : List Nat} {vals : List (List Nat)}
    (s : List Nat) {a b : Nat} (hinv : Inv m qa nodes vals)
    (ha : m.ele a = none) (hb : m.str b = none) :
    ∃ m1 q q1, q_insert_head m (some qa) s (some a) (some b) = some (true, m1) ∧
      Inv m1 qa (a :: nodes) (s :: vals) ∧
      m.queue qa = some q ∧ m1.queue qa = some q1 ∧ q1.size = q.size + 1 ∧
      q1.head = some a ∧ m1.valueOf a = some s ∧
      (∀ x ∈ nodes, m1.ele x = m.ele x ∧ m1.valueOf x = m.valueOf x) ∧
      (nodes = [] → q1.tail = some a ∧ m1.ele a = some ⟨some b, none⟩) := by
  obtain ⟨q, hq, hch, htail, hsize⟩ := hinv.chain
  cases nodes with
  | nil =>
    simp only [Chain, Seg] at hch
    have hI := Inv_cons
      ⟨Function.update m.queue qa (some ⟨some a, some a, q.size + 1⟩),
        Function.update m.ele a (some ⟨some b, q.head⟩), Function.update m.str b (some s)⟩
      ⟨some a, some a, q.size + 1⟩ hinv hq ha hb (s := s)
      (by simp) rfl (by simp) rfl rfl rfl
    refine ⟨_, q, ⟨some a, some a, q.size + 1⟩, ?_, hI.1, hq, by simp, rfl, rfl, ?_, hI.2, ?_⟩
    · simp [q_insert_head, malloc_ele, malloc_str, Mem.setNext, strncpy, Mem.setHead,
        Mem.setValue, Mem.setSize, Mem.setTail, hq, strlen, hsize, hch]
    · simp [Mem.valueOf]
    · intro _
      simp [hch]
  | cons x xs =>
    have hI := Inv_cons
      ⟨Function.update m.queue qa (some ⟨some a, q.tail, q.size + 1⟩),
        Function.update m.ele a (some ⟨some b, q.head⟩), Function.update m.str b (some s)⟩
      ⟨some a, q.tail, q.size + 1⟩ hinv hq ha hb (s := s)
      (by simp) rfl (by simp [htail]) rfl rfl rfl
    have hne : (xs.length : Int) + 1 ≠ 0 := by omega
    refine ⟨_, q, ⟨some a, q.tail, q.size + 1⟩, ?_, hI.1, hq, by simp, rfl, rfl, ?_, hI.2, ?_⟩
    · simp [q_insert_head, malloc_ele, malloc_str, Mem.setNext, strncpy, Mem.setHead,
        Mem.setValue, Mem.setSize, Mem.setTail, hq, strlen, hsize, hne]
    · simp [Mem.valueOf]
    · intro h
      cases h

theorem q_insert_tail_run {m : Mem} {qa : Nat} {nodes : List Nat} {vals : List (List Nat)}
    (s : List Nat) {a b : Nat} (hinv : Inv m qa nodes vals)
    (ha : m.ele a = none) (hb : m.str b = none) :
    ∃ m1 q q1, q_insert_tail m (some qa) s (some a) (some b) = some (true, m1) ∧
      Inv m1 qa (nodes ++ [a]) (vals ++ [s]) ∧
      m.queue qa = some q ∧ m1.queue qa = some q1 ∧ q1.size = q.size + 1 ∧
      q1.tail = some a ∧ m1.valueOf a = some s ∧
      (∀ x ∈ nodes, m1.ptrOf x = m.ptrOf x ∧ m1.valueOf x = m.valueOf x) ∧
      (nodes = [] → q1.head = some a ∧ m1.ele a = some ⟨some b, none⟩) := by
  obtain ⟨q, hq, hch, htail, hsize⟩ := hinv.chain
  rcases List.eq_nil_or_concat nodes with rfl | ⟨init, t, rfl⟩
  · simp only [Chain, Seg] at hch
    simp only [List.getLast?_nil] at htail
    have hvn : vals = [] := by
      have := hinv.values
      cases vals with
      | nil => rfl
      | cons v vs => simp at this
    subst hvn
    have hI := Inv_cons
      ⟨Function.update m.queue qa (some ⟨some a, some a, q.size + 1⟩),
        Function.update m.ele a (some ⟨some b, q.head⟩), Function.update m.str b (some s)⟩
      ⟨some a, some a, q.size + 1⟩ hinv hq ha hb (s := s)
      (by simp) rfl (by simp) rfl rfl rfl
    refine ⟨_, q, ⟨some a, some a, q.size + 1⟩, ?_, hI.1, hq, by simp, rfl, rfl, ?_, ?_, ?_⟩
    · simp [q_insert_tail, malloc_ele, malloc_str, Mem.setNext, strncpy, Mem.setHead,
        Mem.setValue, Mem.setSize, Mem.setTail, hq, strlen, hsize, hch, htail]
    · simp [Mem.valueOf]
    · intro x hx
      cases hx
    · intro _
      simp [hch]
  · rw [List.concat_eq_append] at hinv hch htail hsize
    rw [List.concat_eq_append]
    rw [List.getLast?_concat] at htail
    obtain ⟨et, het⟩ := Seg_alloc hch (a := t) (by simp)
    have hta : t ≠ a := by
      rintro rfl
      rw [ha] at het
      cases het
    have hrun : ∃ m1, q_insert_tail m (some qa) s (some a) (some b) = some (true, m1) ∧
        m1.queue qa = some ⟨q.head, some a, q.size + 1⟩ ∧
        m1.ele a = some ⟨some b, none⟩ ∧ m1.ele t = some ⟨et.value, some a⟩ ∧
        (∀ x, x ≠ a → x ≠ t → m1.ele x = m.ele x) ∧
        m1.str = Function.update m.str b (some s) := by
      simp [q_insert_tail, malloc_ele, malloc_str, Mem.setNext, strncpy, Mem.setHead,
        Mem.setValue, Mem.setSize, Mem.setTail, hq, strlen, hsize, htail, het, hta, hta.symm]
      intro x hxa hxt
      simp [Function.update_noteq, hxa, hxt]
    obtain ⟨m1, hr, hq1, hea, het1, he, hstr⟩ := hrun
    have hI := Inv_snoc hinv hq het ha hb hq1 rfl rfl rfl hea het1 he hstr (s := s)
    refine ⟨m1, q, _, hr, hI.1, hq, hq1, rfl, rfl, ?_, hI.2, ?_⟩
    · simp [Mem.valueOf, hea, hstr]
    · intro h
      simp at h

theorem q_remove_head_run {m : Mem} {qa x : Nat} {rest : List Nat} {v : List Nat}
    {vals : List (List Nat)} (hinv : Inv m qa (x :: rest) (v :: vals))
    (sp : Option (Nat → Nat)) (k : Nat) :
    ∃ m1 q q1, q_remove_head m (some qa) sp k =
        some (true, m1, sp.map (fun buf => bufAfter buf v k)) ∧
      Inv m1 qa rest vals ∧
      m.queue qa = some q ∧ m1.queue qa = some q1 ∧ q1.size = q.size - 1 ∧
      q1.tail = rest.getLast? ∧ m1.ele x = none := by
  obtain ⟨q, hq, hch, htail, hsize⟩ := hinv.chain
  obtain ⟨e, pv, s, he, hv, hstr, hp, hval⟩ := hinv.value_alloc (x := x) (by simp)
  have hvs : s = v := by
    have := hinv.values
    simp only [List.map_cons, List.cons.injEq, hval, Option.some.injEq] at this
    exact this.1
  subst hvs
  have hh : q.head = some x := hch.1
  have hrun : ∃ m1, q_remove_head m (some qa) sp k =
        some (true, m1, sp.map (fun buf => bufAfter buf s k)) ∧
      m1.queue qa = some ⟨e.next, rest.getLast?, q.size - 1⟩ ∧
      m1.ele = Function.update m.ele x none ∧
      m1.str = Function.update m.str pv none := by
    cases rest with
    | nil =>
      cases sp <;>
      simp [q_remove_head, Mem.setHead, Mem.setSize, Mem.setTail, hq, hsize, hh, he, hv,
        hstr, hval, free_str, free_ele, bufAfter, realcpy]
    | cons y ys =>
      have hne : (ys.length : Int) + 1 ≠ 0 := by omega
      cases sp <;>
      simp [q_remove_head, Mem.setHead, Mem.setSize, Mem.setTail, hq, hsize, hh, he, hv,
        hstr, hval, free_str, free_ele, bufAfter, realcpy, hne, htail]
  obtain ⟨m1, hr, hq1, hele, hs1⟩ := hrun
  have hI := Inv_tail hinv hq he hv hq1 rfl rfl rfl hele hs1
  exact ⟨m1, q, _, hr, hI, hq, hq1, rfl, rfl, by simp [hele]⟩

theorem q_remove_head_empty {m : Mem} {qa : Nat} {vals : List (List Nat)}
    (hinv : Inv m qa [] vals) (sp : Option (Nat → Nat)) (k : Nat) :
    q_remove_head m (some qa) sp k = some (false, m, sp) := by
  obtain ⟨q, hq, hch, _, _⟩ := hinv.chain
  simp only [Chain, Seg] at hch
  simp [q_remove_head, hq, hch]

/-! ## The copy into the caller's buffer -/

theorem realcpy_of_pos {k : Nat} (len : Nat) (h1 : 1 ≤ k) (h2 : k < SIZE_MOD) :
    realcpy k len = min (k - 1) len := by
  have h : (k + SIZE_MOD - 1) % SIZE_MOD = k - 1 := by
    have : k + SIZE_MOD - 1 = (k - 1) + SIZE_MOD := by omega
    rw [this, Nat.add_mod_right, Nat.mod_eq_of_lt (by omega)]
  unfold realcpy
  rw [h]
  split <;> omega

theorem bufAfter_lt (buf : Nat → Nat) (v : List Nat) (k : Nat) {i : Nat}
    (h : i < realcpy k (strlen v)) : bufAfter buf v k i = v.getD i 0 := by
  unfold bufAfter memcpy
  rw [Function.update_noteq (by omega)]
  simp [h]

theorem bufAfter_eq (buf : Nat → Nat) (v : List Nat) (k : Nat) :
    bufAfter buf v k (realcpy k (strlen v)) = 0 := by
  unfold bufAfter
  rw [Function.update_same]

theorem bufAfter_gt (buf : Nat → Nat) (v : List Nat) (k : Nat) {i : Nat}
    (h : realcpy k (strlen v) < i) : bufAfter buf v k i = buf i := by
  unfold bufAfter memcpy
  rw [Function.update_noteq (by omega)]
  simp only [ite_eq_right_iff]
  intro h2
  omega

theorem memNew_inv : Inv memNew 0 [] [] :=
  ⟨⟨⟨none, none, 0⟩, rfl, rfl, rfl, rfl⟩, rfl, List.nodup_nil⟩

theorem memBAC_inv : Inv memBAC 0 [1, 2, 3] [[98], [97], [99]] :=
  ⟨⟨⟨some 1, some 3, 3⟩, rfl, ⟨rfl, _, rfl, rfl, _, rfl, rfl, _, rfl, rfl⟩, rfl, rfl⟩, rfl,
    by decide⟩

/-! ## Insertion -/

/-- C2: on a queue satisfying the invariants and holding `vals` on the chain
`nodes`, with both allocations succeeding (`a` and `b` are addresses not in
use), `q_insert_tail` returns true; the queue then holds `vals` followed by `s`
on the chain `nodes` followed by `a`, the earlier elements keep their strings,
the size is larger by exactly one, and on an empty queue the new element is
both head and tail. -/
theorem q_insert_tail_appends (m : Mem) (qa : Nat) (nodes : List Nat)
    (vals : List (List Nat)) (s : List Nat) (a b : Nat) (hinv : Inv m qa nodes vals)
    (ha : m.ele a = none) (hb : m.str b = none) :
    ∃ m1 q q1, q_insert_tail m (some qa) s (some a) (some b) = some (true, m1) ∧
      Inv m1 qa (nodes ++ [a]) (vals ++ [s]) ∧
      m.queue qa = some q ∧ m1.queue qa = some q1 ∧ q1.size = q.size + 1 ∧
      q1.tail = some a ∧ m1.valueOf a = some s ∧
      (∀ x ∈ nodes, m1.ptrOf x = m.ptrOf x ∧ m1.valueOf x = m.valueOf x) ∧
      (nodes = [] → q1.head = some a ∧ m1.ele a = some ⟨some b, none⟩) :=
  q_insert_tail_run s hinv ha hb

theorem q_insert_tail_appends_witness :
    ∃ m1 q q1, q_insert_tail memBAC (some 0) [100] (some 4) (some 14) = some (true, m1) ∧
      Inv m1 0 ([1, 2, 3] ++ [4]) ([[98], [97], [99]] ++ [[100]]) ∧
      memBAC.queue 0 = some q ∧ m1.queue 0 = some q1 ∧ q1.size = q.size + 1 ∧
      q1.tail = some 4 ∧ m1.valueOf 4 = some [100] ∧
      (∀ x ∈ [1, 2, 3], m1.ptrOf x = memBAC.ptrOf x ∧ m1.valueOf x = memBAC.valueOf x) ∧
      (([1, 2, 3] : List Nat) = [] → q1.head = some 4 ∧ m1.ele 4 = some ⟨some 14, none⟩) :=
  q_insert_tail_appends memBAC 0 [1, 2, 3] [[98], [97], [99]] [100] 4 14 memBAC_inv rfl rfl

/-- C3: on a queue satisfying the invariants and holding `vals` on the chain
`nodes`, with both allocations succeeding (`a` and `b` are addresses not in
use), `q_insert_head` returns true; the queue then holds `s` followed by `vals`
on the chain `a` followed by `nodes`, the other elements are unchanged, the size
is larger by exactly one, and on an empty queue the new element is both head and
tail with a terminal link. -/
theorem q_insert_head_prepends (m : Mem) (qa : Nat) (nodes : List Nat)
    (vals : List (List Nat)) (s : List Nat) (a b : Nat) (hinv : Inv m qa nodes vals)
    (ha : m.ele a = none) (hb : m.str b = none) :
    ∃ m1 q q1, q_insert_head m (some qa) s (some a) (some b) = some (true, m1) ∧
      Inv m1 qa (a :: nodes) (s :: vals) ∧
      m.queue qa = some q ∧ m1.queue qa = some q1 ∧ q1.size = q.size + 1 ∧
      q1.head = some a ∧ m1.valueOf a = some s ∧
      (∀ x ∈ nodes, m1.ele x = m.ele x ∧ m1.valueOf x = m.valueOf x) ∧
      (nodes = [] → q1.tail = some a ∧ m1.ele a = some ⟨some b, none⟩) :=
  q_insert_head_run s hinv ha hb

theorem q_insert_head_prepends_witness :
    ∃ m1 q q1, q_insert_head memNew (some 0) [104, 105] (some 1) (some 11) = some (true, m1) ∧
      Inv m1 0 [1] [[104, 105]] ∧
      memNew.queue 0 = some q ∧ m1.queue 0 = some q1 ∧ q1.size = q.size + 1 ∧
      q1.head = some 1 ∧ m1.valueOf 1 = some [104, 105] ∧
      (∀ x ∈ ([] : List Nat), m1.ele x = memNew.ele x ∧ m1.valueOf x = memNew.valueOf x) ∧
      (([] : List Nat) = [] → q1.tail = some 1 ∧ m1.ele 1 = some ⟨some 11, none⟩) :=
  q_insert_head_prepends memNew 0 [] [] [104, 105] 1 11 memNew_inv rfl rfl

/-! ## Removal -/

/-- C4: on a queue satisfying the invariants and holding `v` followed by `vals`
on the chain `x` followed by `rest`, `q_remove_head` returns true with or without
an output buffer; afterwards the queue holds exactly `vals` on the chain `rest`,
the size is smaller by exactly one, the removed element is released, and `tail`
is cleared when `rest` is empty. -/
theorem q_remove_head_removes (m : Mem) (qa x : Nat) (rest : List Nat) (v : List Nat)
    (vals : List (List Nat)) (sp : Option (Nat → Nat)) (k : Nat)
    (hinv : Inv m qa (x :: rest) (v :: vals)) :
    ∃ m1 sp1 q q1, q_remove_head m (some qa) sp k = some (true, m1, sp1) ∧
      Inv m1 qa rest vals ∧
      m.queue qa = some q ∧ m1.queue qa = some q1 ∧ q1.size = q.size - 1 ∧
      m1.ele x = none ∧ (rest = [] → q1.tail = none) := by
  obtain ⟨m1, q, q1, hr, hI, hq, hq1, hs, ht, hx⟩ := q_remove_head_run hinv sp k
  refine ⟨m1, _, q, q1, hr, hI, hq, hq1, hs, hx, ?_⟩
  rintro rfl
  exact ht

theorem q_remove_head_removes_witness :
    ∃ m1 sp1 q q1, q_remove_head memBAC (some 0) none 0 = some (true, m1, sp1) ∧
      Inv m1 0 [2, 3] [[97], [99]] ∧
      memBAC.queue 0 = some q ∧ m1.queue 0 = some q1 ∧ q1.size = q.size - 1 ∧
      m1.ele 1 = none ∧ (([2, 3] : List Nat) = [] → q1.tail = none) :=
  q_remove_head_removes memBAC 0 1 [2, 3] [98] [[97], [99]] none 0 memBAC_inv

/-- C5: on an absent queue, or on a queue satisfying the invariants, `q_remove_head`
returns false exactly when the queue is absent or empty, and when it returns false
the memory (head, tail, size and all the rest) and the output buffer are what
they were before the call. -/
theorem q_remove_head_false_iff (m : Mem) (q : Option Nat) (nodes : List Nat)
    (vals : List (List Nat)) (sp : Option (Nat → Nat)) (k : Nat)
    (hinv : ∀ qa, q = some qa → Inv m qa nodes vals) :
    ∃ r m1 sp1, q_remove_head m q sp k = some (r, m1, sp1) ∧
      (r = false ↔ (q = none ∨ nodes = [])) ∧
      (r = false → m1 = m ∧ sp1 = sp) := by
  cases q with
  | none => exact ⟨false, m, sp, rfl, by simp, fun _ => ⟨rfl, rfl⟩⟩
  | some qa =>
    have hI := hinv qa rfl
    cases nodes with
    | nil =>
      exact ⟨false, m, sp, q_remove_head_empty hI sp k, by simp, fun _ => ⟨rfl, rfl⟩⟩
    | cons x rest =>
      cases vals with
      | nil =>
        have := hI.values
        simp at this
      | cons v vals =>
        obtain ⟨m1, _, _, hr, _⟩ := q_remove_head_run hI sp k
        exact ⟨true, m1, _, hr, by simp, by simp⟩

theorem q_remove_head_false_iff_witness :
    ∃ r m1 sp1, q_remove_head memNew (some 0) none 8 = some (r, m1, sp1) ∧
      (r = false ↔ ((some 0 : Option Nat) = none ∨ ([] : List Nat) = [])) ∧
      (r = false → m1 = memNew ∧ sp1 = none) :=
  q_remove_head_false_iff memNew (some 0) [] [] none 8
    (fun qa h => by cases h; exact memNew_inv)

/-- C8: on a non-empty queue satisfying the invariants whose head string is `v`,
with an output buffer `buf` and a capacity `k` of at least one (a `size_t`
value), `q_remove_head` returns true, also when `v` is longer than the buffer,
and the buffer then holds the first `min (k - 1) (strlen v)` bytes of `v`
followed by one zero byte, every later byte being left as it was. -/
theorem q_remove_head_copies (m : Mem) (qa x : Nat) (rest : List Nat) (v : List Nat)
    (vals : List (List Nat)) (buf : Nat → Nat) (k : Nat)
    (hinv : Inv m qa (x :: rest) (v :: vals)) (h1 : 1 ≤ k) (h2 : k < SIZE_MOD) :
    ∃ m1 buf1, q_remove_head m (some qa) (some buf) k = some (true, m1, some buf1) ∧
      (∀ i, i < min (k - 1) (strlen v) → buf1 i = v.getD i 0) ∧
      buf1 (min (k - 1) (strlen v)) = 0 ∧
      (∀ i, min (k - 1) (strlen v) < i → buf1 i = buf i) := by
  obtain ⟨m1, _, _, hr, _⟩ := q_remove_head_run hinv (some buf) k
  have hrc := realcpy_of_pos (strlen v) h1 h2
  refine ⟨m1, bufAfter buf v k, hr, ?_, ?_, ?_⟩
  · intro i hi
    exact bufAfter_lt buf v k (by rw [hrc]; exact hi)
  · rw [← hrc]
    exact bufAfter_eq buf v k
  · intro i hi
    exact bufAfter_gt buf v k (by rw [hrc]; exact hi)

theorem q_remove_head_copies_witness :
    ∃ m1 buf1, q_remove_head memBAC (some 0) (some (fun _ => 255)) 1 =
        some (true, m1, some buf1) ∧
      (∀ i, i < min (1 - 1) (strlen [98]) → buf1 i = [98].getD i 0) ∧
      buf1 (min (1 - 1) (strlen [98])) = 0 ∧
      (∀ i, min (1 - 1) (strlen [98]) < i → buf1 i = (fun _ => 255) i) :=
  q_remove_head_copies memBAC 0 1 [2, 3] [98] [[97], [99]] (fun _ => 255) 1 memBAC_inv
    (by decide) (by decide)

/-- C9, at the failing input: with capacity 0 the subtraction `bufsize - 1` wraps
around, and removing the one-byte string "b" writes two bytes, the byte 98 and
the terminator, into a buffer declared to hold none. -/
theorem q_remove_head_overflow :
    ∃ m1 buf1, q_remove_head memBAC (some 0) (some (fun _ => 255)) 0 =
        some (true, m1, some buf1) ∧ buf1 0 = 98 ∧ buf1 1 = 0 := by
  obtain ⟨m1, _, _, hr, _⟩ := q_remove_head_run memBAC_inv (some (fun _ => 255)) 0
  refine ⟨m1, _, hr, ?_, ?_⟩
  · simp [bufAfter, realcpy, SIZE_MOD, strlen, memcpy]
  · simp [bufAfter, realcpy, SIZE_MOD, strlen, memcpy]

theorem q_size_of_inv {m : Mem} {qa : Nat} {nodes : List Nat} {vals : List (List Nat)}
    (hinv : Inv m qa nodes vals) : q_size m (some qa) = some (nodes.length : Int) := by
  obtain ⟨q, hq, _, _, hsize⟩ := hinv.chain
  simp [q_size, hq, hsize]

theorem bufAfter_whole (buf : Nat → Nat) (v : List Nat) {k : Nat}
    (h1 : strlen v < k) (h2 : k < SIZE_MOD) :
    (List.range (strlen v)).map (bufAfter buf v k) = v ∧ bufAfter buf v k (strlen v) = 0 := by
  have hrc : realcpy k (strlen v) = strlen v := by
    rw [realcpy_of_pos (strlen v) (by omega) h2]
    omega
  constructor
  · apply List.ext_getElem
    · simp [strlen]
    · intro i hi1 hi2
      simp only [List.getElem_map, List.getElem_range]
      rw [bufAfter_lt buf v k (by rw [hrc]; simpa [strlen] using hi2)]
      simp [List.getD_eq_getElem?_getD, hi2]
  · have := bufAfter_eq buf v k
    rwa [hrc] at this

/-- C10: on an empty queue satisfying the invariants, inserting `s` with
`q_insert_head` or with `q_insert_tail` (both allocations succeeding) and then
calling `q_remove_head` with a buffer whose capacity `k` exceeds the length of
`s` returns true both times; the buffer then starts with the bytes of `s`
followed by the terminator, and the queue is empty again with size 0. -/
theorem insert_remove_roundtrip (m : Mem) (qa : Nat) (s : List Nat) (a b : Nat)
    (buf : Nat → Nat) (k : Nat) (hinv : Inv m qa [] [])
    (ha : m.ele a = none) (hb : m.str b = none) (hk : strlen s < k) (hk2 : k < SIZE_MOD) :
    (∃ m1 m2 buf1, q_insert_head m (some qa) s (some a) (some b) = some (true, m1) ∧
      q_remove_head m1 (some qa) (some buf) k = some (true, m2, some buf1) ∧
      (List.range (strlen s)).map buf1 = s ∧ buf1 (strlen s) = 0 ∧
      Inv m2 qa [] [] ∧ q_size m2 (some qa) = some 0) ∧
    (∃ m1 m2 buf1, q_insert_tail m (some qa) s (some a) (some b) = some (true, m1) ∧
      q_remove_head m1 (some qa) (some buf) k = some (true, m2, some buf1) ∧
      (List.range (strlen s)).map buf1 = s ∧ buf1 (strlen s) = 0 ∧
      Inv m2 qa [] [] ∧ q_size m2 (some qa) = some 0) := by
  have hb1 := bufAfter_whole buf s hk hk2
  constructor
  · obtain ⟨m1, _, _, hr1, hI1, _⟩ := q_insert_head_run s hinv ha hb
    obtain ⟨m2, _, _, hr2, hI2, _⟩ := q_remove_head_run hI1 (some buf) k
    exact ⟨m1, m2, _, hr1, hr2, hb1.1, hb1.2, hI2, q_size_of_inv hI2⟩
  · obtain ⟨m1, _, _, hr1, hI1, _⟩ := q_insert_tail_run s hinv ha hb
    obtain ⟨m2, _, _, hr2, hI2, _⟩ := q_remove_head_run hI1 (some buf) k
    exact ⟨m1, m2, _, hr1, hr2, hb1.1, hb1.2, hI2, q_size_of_inv hI2⟩

theorem insert_remove_roundtrip_witness :
    (∃ m1 m2 buf1, q_insert_head memNew (some 0) [104, 105] (some 1) (some 11) =
        some (true, m1) ∧
      q_remove_head m1 (some 0) (some (fun _ => 255)) 3 = some (true, m2, some buf1) ∧
      (List.range (strlen [104, 105])).map buf1 = [104, 105] ∧
      buf1 (strlen [104, 105]) = 0 ∧
      Inv m2 0 [] [] ∧ q_size m2 (some 0) = some 0) ∧
    (∃ m1 m2 buf1, q_insert_tail memNew (some 0) [104, 105] (some 1) (some 11) =
        some (true, m1) ∧
      q_remove_head m1 (some 0) (some (fun _ => 255)) 3 = some (true, m2, some buf1) ∧
      (List.range (strlen [104, 105])).map buf1 = [104, 105] ∧
      buf1 (strlen [104, 105]) = 0 ∧
      Inv m2 0 [] [] ∧ q_size m2 (some 0) = some 0) :=
  insert_remove_roundtrip memNew 0 [104, 105] 1 11 (fun _ => 255) 3 memNew_inv rfl rfl
    (by decide) (by decide)

theorem SameValues.refl (m : Mem) : SameValues m m := ⟨rfl, fun _ => rfl⟩

theorem SameValues.trans {m m1 m2 : Mem} (h1 : SameValues m m1) (h2 : SameValues m1 m2) :
    SameValues m m2 :=
  ⟨h2.str.trans h1.str, fun x => (h2.ptr x).trans (h1.ptr x)⟩

theorem SameValues.valueOf {m m1 : Mem} (h : SameValues m m1) (x : Nat) :
    m1.valueOf x = m.valueOf x := by
  rw [valueOf_eq, valueOf_eq, h.ptr, h.str]

theorem SameValues.valD {m m1 : Mem} (h : SameValues m m1) (x : Nat) :
    m1.valD x = m.valD x := by
  simp [Mem.valD, h.valueOf]

theorem SameValues.alloc {m m1 : Mem} (h : SameValues m m1) {x : Nat} {e : list_ele_t}
    (he : m.ele x = some e) (hv : e.value ≠ none) : ∃ e1, m1.ele x = some e1 := by
  have := h.ptr x
  simp only [Mem.ptrOf, he, Option.some_bind] at this
  cases h1 : m1.ele x with
  | none =>
    rw [h1] at this
    exact absurd this.symm hv
  | some e1 => exact ⟨e1, rfl⟩

theorem setNext_sameValues {m m1 : Mem} {a : Nat} {p : Option Nat}
    (h : m.setNext a p = some m1) : SameValues m m1 ∧ m1.queue = m.queue ∧
      ∃ e, m.ele a = some e ∧ m1.ele = Function.update m.ele a (some ⟨e.value, p⟩) := by
  unfold Mem.setNext at h
  cases he : m.ele a with
  | none => simp [he] at h
  | some e =>
    simp only [he, Option.some.injEq] at h
    subst h
    refine ⟨⟨rfl, fun x => ?_⟩, rfl, e, rfl, rfl⟩
    by_cases hx : x = a
    · subst hx
      simp [Mem.ptrOf, he]
    · simp [Mem.ptrOf, Function.update_noteq hx]

theorem Inv.vals_eq {m : Mem} {qa : Nat} {nodes : List Nat} {vals : List (List Nat)}
    (hinv : Inv m qa nodes vals) : vals = nodes.map m.valD := by
  have h := hinv.values
  have h2 : (nodes.map m.valueOf).map (fun o => o.getD []) =
      (vals.map some).map (fun o => o.getD []) := by rw [h]
  simp only [List.map_map] at h2
  have h3 : ((fun o : Option (List Nat) => o.getD []) ∘ some) = id := by
    funext x
    rfl
  rw [h3, List.map_id] at h2
  rw [← h2]
  rfl

/-- Relinking the elements of a queue in another order, without touching strings
or `value` pointers, keeps the invariant for the permuted sequence. -/
theorem Inv_relink {m m1 : Mem} {qa : Nat} {nodes : List Nat} {vals : List (List Nat)}
    (hinv : Inv m qa nodes vals) (hsame : SameValues m m1) {q : queue_t} (q1 : queue_t)
    (nodes1 : List Nat) (hq : m.queue qa = some q) (hq1 : m1.queue qa = some q1)
    (hch : Chain m1.ele q1.head nodes1) (hperm : nodes1.Perm nodes)
    (ht : q1.tail = nodes1.getLast?) (hs : q1.size = q.size) :
    Inv m1 qa nodes1 (nodes1.map m.valD) := by
  obtain ⟨q0, hq0, _, _, hsize⟩ := hinv.chain
  rw [hq] at hq0
  cases hq0
  refine ⟨⟨q1, hq1, hch, ht, ?_⟩, ?_, ?_⟩
  · rw [hs, hsize, hperm.length_eq]
  · rw [List.map_map]
    apply List.map_congr_left
    intro x hx
    obtain ⟨_, _, s, _, _, _, _, hval⟩ := hinv.value_alloc (hperm.subset hx)
    simp [hsame.valueOf, Mem.valD, hval]
  · have : nodes1.map m1.ptrOf = nodes1.map m.ptrOf :=
      List.map_congr_left (fun x _ => hsame.ptr x)
    rw [this]
    exact (hperm.map _).nodup_iff.mpr hinv.owned

/-! ## Reversal -/

theorem q_reverse_loop_run (rest : List Nat) :
    ∀ (fuel : Nat) (m : Mem) (prev : Option Nat) (curr : Nat) (next : Option Nat)
      (done : List Nat),
      Chain m.ele prev done → Chain m.ele next rest → (∃ e, m.ele curr = some e) →
      curr ∉ done → curr ∉ rest → (∀ x ∈ done, x ∉ rest) → rest.length < fuel →
      ∃ m1 prev1 curr1 T, q_reverse_loop fuel m prev curr next = some (m1, prev1, curr1) ∧
        Chain m1.ele prev1 T ∧ curr1 :: T = (curr :: rest).reverse ++ done ∧
        (∃ e1, m1.ele curr1 = some e1) ∧ SameValues m m1 ∧ m1.queue = m.queue := by
  induction rest with
  | nil =>
    intro fuel m prev curr next done hd hr hc _ _ _ hf
    obtain ⟨f, rfl⟩ : ∃ f, fuel = f + 1 := ⟨fuel - 1, by simp at hf; omega⟩
    simp only [Chain, Seg] at hr
    subst hr
    exact ⟨m, prev, curr, done, by simp [q_reverse_loop], hd, by simp, hc,
      SameValues.refl m, rfl⟩
  | cons n rest ih =>
    intro fuel m prev curr next done hd hr hc hcd hcr hdr hf
    obtain ⟨f, rfl⟩ : ∃ f, fuel = f + 1 := ⟨fuel - 1, by simp at hf; omega⟩
    have hnd := List.nodup_cons.mp (Chain_nodup hr)
    obtain ⟨hn, en, hen, hrest⟩ := hr
    subst hn
    obtain ⟨ec, hec⟩ := hc
    have hnc : n ≠ curr := by
      rintro rfl
      exact hcr (List.mem_cons_self _ _)
    obtain ⟨m', hm'⟩ : ∃ m', m.setNext curr prev = some m' := by simp [Mem.setNext, hec]
    obtain ⟨hsv, hqu, e0, he0, hele⟩ := setNext_sameValues hm'
    have hen' : m'.ele n = some en := by rw [hele, Function.update_noteq hnc, hen]
    have hd' : Chain m'.ele (some curr) (curr :: done) := by
      refine ⟨rfl, _, by rw [hele, Function.update_same], Seg_frame hd (fun x hx => ?_)⟩
      rw [hele, Function.update_noteq]
      rintro rfl
      exact hcd hx
    have hr' : Chain m'.ele en.next rest := by
      refine Seg_frame hrest (fun x hx => ?_)
      rw [hele, Function.update_noteq]
      rintro rfl
      exact hcr (List.mem_cons_of_mem _ hx)
    have hnd' : n ∉ curr :: done := by
      intro h
      rcases List.mem_cons.mp h with h | h
      · exact hnc h
      · exact hdr n h (List.mem_cons_self _ _)
    have hdr' : ∀ x ∈ curr :: done, x ∉ rest := by
      intro x hx hxr
      rcases List.mem_cons.mp hx with h | h
      · subst h
        exact hcr (List.mem_cons_of_mem _ hxr)
      · exact hdr x h (List.mem_cons_of_mem _ hxr)
    obtain ⟨m1, prev1, curr1, T, hrun, hT, hTeq, hc1, hsv1, hqu1⟩ :=
      ih f m' (some curr) n en.next (curr :: done) hd' hr' ⟨en, hen'⟩ hnd' hnd.1 hdr'
        (by simp at hf; omega)
    refine ⟨m1, prev1, curr1, T, ?_, hT, ?_, hc1, hsv.trans hsv1, hqu1.trans hqu⟩
    · simp [q_reverse_loop, hm', hen', hrun]
    · rw [hTeq]
      simp

theorem q_reverse_run {m : Mem} {qa : Nat} {nodes : List Nat} {vals : List (List Nat)}
    (hinv : Inv m qa nodes vals) {fuel : Nat} (hf : nodes.length ≤ fuel) :
    ∃ m1, q_reverse fuel m (some qa) = some m1 ∧ Inv m1 qa nodes.reverse vals.reverse ∧
      SameValues m m1 ∧ (nodes = [] → m1 = m) := by
  obtain ⟨q, hq, hch, htail, hsize⟩ := hinv.chain
  cases nodes with
  | nil =>
    simp only [Chain, Seg] at hch
    have hvn : vals = [] := by
      have := hinv.values
      cases vals with
      | nil => rfl
      | cons v vs => simp at this
    subst hvn
    exact ⟨m, by simp [q_reverse, hq, hch], hinv, SameValues.refl m, fun _ => rfl⟩
  | cons h rest =>
    have hnd := List.nodup_cons.mp (Chain_nodup hch)
    obtain ⟨hh, eh, heh, hrest⟩ := hch
    obtain ⟨m1, prev1, curr1, T, hrun, hT, hTeq, ⟨e1, he1⟩, hsv1, hqu1⟩ :=
      q_reverse_loop_run rest fuel
        ⟨Function.update m.queue qa (some ⟨some h, some h, q.size⟩), m.ele, m.str⟩
        none h eh.next [] rfl hrest ⟨eh, heh⟩ (by simp) hnd.1 (by simp)
        (by simp at hf; omega)
    have hTeq' : curr1 :: T = (h :: rest).reverse := by simpa using hTeq
    have hnd2 : (curr1 :: T).Nodup := by
      rw [hTeq']
      exact List.nodup_reverse.mpr (Chain_nodup ⟨hh, eh, heh, hrest⟩)
    have hsv0 : SameValues m
        ⟨Function.update m.queue qa (some ⟨some h, some h, q.size⟩), m.ele, m.str⟩ :=
      ⟨rfl, fun _ => rfl⟩
    have hres : q_reverse fuel m (some qa) = some
        ⟨Function.update m1.queue qa (some ⟨some curr1, some h, q.size⟩),
          Function.update m1.ele curr1 (some ⟨e1.value, prev1⟩), m1.str⟩ := by
      simp [q_reverse, hq, hh, Mem.setTail, heh, hrun, Mem.setHead, hqu1, Mem.setNext, he1]
    have hsv2 : SameValues m1
        ⟨Function.update m1.queue qa (some ⟨some curr1, some h, q.size⟩),
          Function.update m1.ele curr1 (some ⟨e1.value, prev1⟩), m1.str⟩ := by
      refine ⟨rfl, fun x => ?_⟩
      by_cases hx : x = curr1
      · subst hx
        simp [Mem.ptrOf, he1]
      · simp [Mem.ptrOf, Function.update_noteq hx]
    have hsv := (hsv0.trans hsv1).trans hsv2
    refine ⟨_, hres, ?_, hsv, fun h => by cases h⟩
    have hI := Inv_relink hinv hsv ⟨some curr1, some h, q.size⟩ (h :: rest).reverse hq
      (by simp) ?_ (List.reverse_perm _) ?_ rfl
    · rw [hinv.vals_eq, ← List.map_reverse]
      exact hI
    · rw [← hTeq']
      refine ⟨rfl, ⟨e1.value, prev1⟩, by simp, Seg_frame hT (fun x hx => ?_)⟩
      have : x ≠ curr1 := by
        rintro rfl
        exact (List.nodup_cons.mp hnd2).1 hx
      simp [Function.update_noteq this]
    · simp

/-! ## The comparison -/

theorem strcmp_neg (a b : List Nat) : strcmp b a = - strcmp a b := by
  induction a generalizing b with
  | nil => cases b <;> simp [strcmp]
  | cons x xs ih =>
    cases b with
    | nil => simp [strcmp]
    | cons y ys =>
      simp only [strcmp]
      rcases Nat.lt_trichotomy x y with h | h | h
      · have h2 : ¬ y < x := by omega
        simp [h, h2]
      · subst h
        simp [ih]
      · have h2 : ¬ x < y := by omega
        simp [h, h2]

theorem strcmp_le_trans (a b c : List Nat) (h1 : strcmp a b ≤ 0) (h2 : strcmp b c ≤ 0) :
    strcmp a c ≤ 0 := by
  induction a generalizing b c with
  | nil => cases c <;> simp [strcmp]
  | cons x xs ih =>
    cases b with
    | nil => simp [strcmp] at h1
    | cons y ys =>
      cases c with
      | nil => simp [strcmp] at h2
      | cons z zs =>
        simp only [strcmp] at h1 h2 ⊢
        rcases Nat.lt_trichotomy x y with hxy | hxy | hxy
        · rcases Nat.lt_trichotomy y z with hyz | hyz | hyz
          · have : x < z := by omega
            simp [this]
          · subst hyz
            simp [hxy]
          · have h3 : ¬ y < z := by omega
            simp [h3, hyz] at h2
        · subst hxy
          rcases Nat.lt_trichotomy x z with hyz | hyz | hyz
          · simp [hyz]
          · subst hyz
            simp only [lt_self_iff_false, if_false] at h1 h2 ⊢
            exact ih ys zs h1 h2
          · have h3 : ¬ x < z := by omega
            simp [h3, hyz] at h2
        · have h3 : ¬ x < y := by omega
          simp [h3, hxy] at h1

theorem strcmp_le_of_lt {a b : List Nat} (h : strcmp a b < 0) : strcmp a b ≤ 0 := by omega

theorem strcmp_le_of_not_lt {a b : List Nat} (h : ¬ strcmp a b < 0) : strcmp b a ≤ 0 := by
  rw [strcmp_neg a b]
  omega

theorem strcmp_le_iff_not_lt (a b : List Nat) : strcmp b a ≤ 0 ↔ ¬ strcmp a b < 0 := by
  rw [strcmp_neg a b]
  omega

/-! ## The list-level merge -/

theorem mergeL_nil_left (k : Nat → List Nat) (rs : List Nat) : mergeL k [] rs = rs := by
  rw [mergeL]

theorem mergeL_nil_right (k : Nat → List Nat) (ls : List Nat) : mergeL k ls [] = ls := by
  cases ls <;> rw [mergeL]

theorem mergeL_cons_lt (k : Nat → List Nat) {l r : Nat} (ls rs : List Nat)
    (h : strcmp (k l) (k r) < 0) :
    mergeL k (l :: ls) (r :: rs) = l :: mergeL k ls (r :: rs) := by
  rw [mergeL, if_pos h]

theorem mergeL_cons_ge (k : Nat → List Nat) {l r : Nat} (ls rs : List Nat)
    (h : ¬ strcmp (k l) (k r) < 0) :
    mergeL k (l :: ls) (r :: rs) = r :: mergeL k (l :: ls) rs := by
  rw [mergeL, if_neg h]

theorem mergeL_perm (k : Nat → List Nat) :
    ∀ (n : Nat) (ls rs : List Nat), ls.length + rs.length = n →
      (mergeL k ls rs).Perm (ls ++ rs) := by
  intro n
  induction n with
  | zero =>
    intro ls rs h
    have h1 : ls = [] := List.length_eq_zero.mp (by omega)
    have h2 : rs = [] := List.length_eq_zero.mp (by omega)
    subst h1 h2
    rw [mergeL_nil_left]
    exact List.Perm.refl _
  | succ n ih =>
    intro ls rs h
    cases ls with
    | nil =>
      rw [mergeL_nil_left]
      exact List.Perm.refl _
    | cons l ls =>
      cases rs with
      | nil =>
        rw [mergeL_nil_right]
        simp
      | cons r rs =>
        by_cases hlt : strcmp (k l) (k r) < 0
        · rw [mergeL_cons_lt k ls rs hlt]
          exact (ih ls (r :: rs) (by simp at h ⊢; omega)).cons l
        · rw [mergeL_cons_ge k ls rs hlt]
          have h1 := (ih (l :: ls) rs (by simp at h ⊢; omega)).cons r
          refine h1.trans ?_
          exact (List.perm_middle : ((l :: ls) ++ r :: rs).Perm (r :: ((l :: ls) ++ rs))).symm

theorem mergeL_sorted (k : Nat → List Nat) :
    ∀ (n : Nat) (ls rs : List Nat), ls.length + rs.length = n →
      StrSorted (ls.map k) → StrSorted (rs.map k) → StrSorted ((mergeL k ls rs).map k) := by
  intro n
  induction n with
  | zero =>
    intro ls rs h _ h2
    have h1 : ls = [] := List.length_eq_zero.mp (by omega)
    subst h1
    rw [mergeL_nil_left]
    exact h2
  | succ n ih =>
    intro ls rs h hl hr
    cases ls with
    | nil =>
      rw [mergeL_nil_left]
      exact hr
    | cons l ls =>
      cases rs with
      | nil =>
        rw [mergeL_nil_right]
        exact hl
      | cons r rs =>
        have hl' := List.pairwise_cons.mp hl
        have hr' := List.pairwise_cons.mp hr
        by_cases hlt : strcmp (k l) (k r) < 0
        · rw [mergeL_cons_lt k ls rs hlt]
          have hrec := ih ls (r :: rs) (by simp at h ⊢; omega) hl'.2 hr
          refine List.pairwise_cons.mpr ⟨?_, hrec⟩
          intro v hv
          obtain ⟨x, hx, rfl⟩ := List.mem_map.mp hv
          have hx2 := (mergeL_perm k _ ls (r :: rs) rfl).subset hx
          rcases List.mem_append.mp hx2 with hx3 | hx3
          · exact hl'.1 _ (List.mem_map_of_mem k hx3)
          · rcases List.mem_cons.mp hx3 with rfl | hx4
            · exact strcmp_le_of_lt hlt
            · exact strcmp_le_trans _ _ _ (strcmp_le_of_lt hlt)
                (hr'.1 _ (List.mem_map_of_mem k hx4))
        · rw [mergeL_cons_ge k ls rs hlt]
          have hrec := ih (l :: ls) rs (by simp at h ⊢; omega) hl hr'.2
          refine List.pairwise_cons.mpr ⟨?_, hrec⟩
          intro v hv
          obtain ⟨x, hx, rfl⟩ := List.mem_map.mp hv
          have hx2 := (mergeL_perm k _ (l :: ls) rs rfl).subset hx
          rcases List.mem_append.mp hx2 with hx3 | hx3
          · rcases List.mem_cons.mp hx3 with rfl | hx4
            · exact strcmp_le_of_not_lt hlt
            · exact strcmp_le_trans _ _ _ (strcmp_le_of_not_lt hlt)
                (hl'.1 _ (List.mem_map_of_mem k hx4))
          · exact hr'.1 _ (List.mem_map_of_mem k hx3)

theorem mergeL_head (k : Nat → List Nat) (l r : Nat) (ls rs : List Nat) :
    (mergeL k (l :: ls) (r :: rs)).head? =
      if strcmp (k l) (k r) < 0 then some l else some r := by
  by_cases hlt : strcmp (k l) (k r) < 0
  · rw [mergeL_cons_lt k ls rs hlt, if_pos hlt]
    rfl
  · rw [mergeL_cons_ge k ls rs hlt, if_neg hlt]
    rfl

theorem Chain_head {ele : Nat → Option list_ele_t} {as : List Nat} {p : Option Nat}
    (h : Chain ele p as) : p = as.head? := by
  cases as with
  | nil => exact h
  | cons a as => exact h.1

theorem Chain_of_head {ele : Nat → Option list_ele_t} {as : List Nat} {p : Option Nat}
    (h : Chain ele p as) : Chain ele as.head? as := by
  rw [← Chain_head h]
  exact h

/-! ## The merge loop -/

theorem merge_loop_step_left {f : Nat} {m : Mem} {l r : Nat} {lv rv : List Nat}
    {el : list_ele_t} (hl : m.valueOf l = some lv) (hr : m.valueOf r = some rv)
    (hlt : strcmp lv rv < 0) (hel : m.ele l = some el) :
    (el.next = none → merge_loop (f + 1) m (some l) (some r) =
      (m.setNext l (some r)).bind (fun m1 => merge_loop f m1 none (some r))) ∧
    (∀ t tv, el.next = some t → m.valueOf t = some tv →
      merge_loop (f + 1) m (some l) (some r) =
        (m.setNext l (if strcmp tv rv < 0 then some t else some r)).bind
          (fun m1 => merge_loop f m1 (some t) (some r))) := by
  constructor
  · intro h
    simp [merge_loop, hl, hr, hlt, hel, h]
  · intro t tv h htv
    simp [merge_loop, hl, hr, hlt, hel, h, htv]

theorem merge_loop_step_right {f : Nat} {m : Mem} {l r : Nat} {lv rv : List Nat}
    {er : list_ele_t} (hl : m.valueOf l = some lv) (hr : m.valueOf r = some rv)
    (hlt : ¬ strcmp lv rv < 0) (her : m.ele r = some er) :
    (er.next = none → merge_loop (f + 1) m (some l) (some r) =
      (m.setNext r (some l)).bind (fun m1 => merge_loop f m1 (some l) none)) ∧
    (∀ t tv, er.next = some t → m.valueOf t = some tv →
      merge_loop (f + 1) m (some l) (some r) =
        (m.setNext r (if strcmp tv lv ≤ 0 then some t else some l)).bind
          (fun m1 => merge_loop f m1 (some l) (some t))) := by
  constructor
  · intro h
    simp [merge_loop, hl, hr, hlt, her, h]
  · intro t tv h htv
    simp [merge_loop, hl, hr, hlt, her, h, htv]

theorem merge_loop_run (k : Nat → List Nat) :
    ∀ (fuel : Nat) (m : Mem) (left right : Option Nat) (ls rs : List Nat),
      Chain m.ele left ls → Chain m.ele right rs → (∀ x ∈ ls, x ∉ rs) →
      (∀ x ∈ ls, m.valueOf x = some (k x)) → (∀ x ∈ rs, m.valueOf x = some (k x)) →
      ls.length + rs.length < fuel →
      ∃ m1, merge_loop fuel m left right = some m1 ∧ SameValues m m1 ∧
        m1.queue = m.queue ∧ (∀ x, x ∉ ls → x ∉ rs → m1.ele x = m.ele x) ∧
        Chain m1.ele (mergeL k ls rs).head? (mergeL k ls rs) := by
  intro fuel
  induction fuel with
  | zero =>
    intro m left right ls rs _ _ _ _ _ hf
    omega
  | succ f ih =>
    intro m left right ls rs hl hr hdis hvl hvr hf
    cases ls with
    | nil =>
      simp only [Chain, Seg] at hl
      subst hl
      refine ⟨m, by simp [merge_loop], SameValues.refl m, rfl, fun _ _ _ => rfl, ?_⟩
      rw [mergeL_nil_left]
      exact Chain_of_head hr
    | cons l ls =>
      cases rs with
      | nil =>
        simp only [Chain, Seg] at hr
        subst hr
        have hleft : left = some l := hl.1
        subst hleft
        refine ⟨m, by simp [merge_loop], SameValues.refl m, rfl, fun _ _ _ => rfl, ?_⟩
        rw [mergeL_nil_right]
        exact hl
      | cons r rs =>
        have hndl := List.nodup_cons.mp (Chain_nodup hl)
        have hndr := List.nodup_cons.mp (Chain_nodup hr)
        obtain ⟨hleft, el, hel, hls⟩ := hl
        obtain ⟨hright, er, her, hrs⟩ := hr
        subst hleft hright
        have hvl0 := hvl l (List.mem_cons_self _ _)
        have hvr0 := hvr r (List.mem_cons_self _ _)
        have hlr : l ≠ r := by
          rintro rfl
          exact hdis l (List.mem_cons_self _ _) (List.mem_cons_self _ _)
        by_cases hlt : strcmp (k l) (k r) < 0
        · -- the left element goes first
          have hstep : merge_loop (f + 1) m (some l) (some r) =
              (m.setNext l (mergeL k ls (r :: rs)).head?).bind
                (fun m1 => merge_loop f m1 el.next (some r)) := by
            have hs := merge_loop_step_left (f := f) hvl0 hvr0 hlt hel
            cases ls with
            | nil =>
              simp only [Chain, Seg] at hls
              rw [mergeL_nil_left, hs.1 hls, hls]
              rfl
            | cons t ls =>
              have ht : el.next = some t := hls.1
              rw [mergeL_head, hs.2 t (k t) ht (hvl t (by simp)), ht]
          obtain ⟨m', hm'⟩ : ∃ m', m.setNext l (mergeL k ls (r :: rs)).head? = some m' := by
            simp [Mem.setNext, hel]
          obtain ⟨hsv, hqu, e0, he0, hele⟩ := setNext_sameValues hm'
          rw [hel] at he0
          cases he0
          have hls' : Chain m'.ele el.next ls := by
            refine Seg_frame hls (fun x hx => ?_)
            rw [hele, Function.update_noteq]
            rintro rfl
            exact hndl.1 hx
          have hrs' : Chain m'.ele (some r) (r :: rs) := by
            have h0 : Chain m.ele (some r) (r :: rs) := ⟨rfl, er, her, hrs⟩
            refine Seg_frame h0 (fun x hx => ?_)
            rw [hele, Function.update_noteq]
            rintro rfl
            exact hdis x (List.mem_cons_self _ _) hx
          obtain ⟨m1, hrun, hsv1, hqu1, hfr1, hch1⟩ := ih m' el.next (some r) ls (r :: rs)
            hls' hrs' (fun x hx => hdis x (List.mem_cons_of_mem _ hx))
            (fun x hx => by rw [hsv.valueOf]; exact hvl x (List.mem_cons_of_mem _ hx))
            (fun x hx => by rw [hsv.valueOf]; exact hvr x hx)
            (by simp at hf ⊢; omega)
          refine ⟨m1, ?_, hsv.trans hsv1, hqu1.trans hqu, ?_, ?_⟩
          · rw [hstep, hm']
            exact hrun
          · intro x hxl hxr
            rw [hfr1 x (fun h => hxl (List.mem_cons_of_mem _ h)) hxr, hele,
              Function.update_noteq]
            rintro rfl
            exact hxl (List.mem_cons_self _ _)
          · rw [mergeL_cons_lt k ls rs hlt]
            refine ⟨rfl, ⟨el.value, (mergeL k ls (r :: rs)).head?⟩, ?_, hch1⟩
            rw [hfr1 l hndl.1 (hdis l (List.mem_cons_self _ _)), hele, Function.update_same]
        · -- the right element goes first
          have hstep : merge_loop (f + 1) m (some l) (some r) =
              (m.setNext r (mergeL k (l :: ls) rs).head?).bind
                (fun m1 => merge_loop f m1 (some l) er.next) := by
            have hs := merge_loop_step_right (f := f) hvl0 hvr0 hlt her
            cases rs with
            | nil =>
              simp only [Chain, Seg] at hrs
              rw [mergeL_nil_right, hs.1 hrs, hrs]
              rfl
            | cons t rs =>
              have ht : er.next = some t := hrs.1
              rw [mergeL_head, hs.2 t (k t) ht (hvr t (by simp)), ht]
              have hiff := strcmp_le_iff_not_lt (k l) (k t)
              by_cases h2 : strcmp (k l) (k t) < 0
              · have h3 : ¬ strcmp (k t) (k l) ≤ 0 := fun h => (hiff.mp h) h2
                rw [if_pos h2, if_neg h3]
              · have h3 : strcmp (k t) (k l) ≤ 0 := hiff.mpr h2
                rw [if_neg h2, if_pos h3]
          obtain ⟨m', hm'⟩ : ∃ m', m.setNext r (mergeL k (l :: ls) rs).head? = some m' := by
            simp [Mem.setNext, her]
          obtain ⟨hsv, hqu, e0, he0, hele⟩ := setNext_sameValues hm'
          rw [her] at he0
          cases he0
          have hrs' : Chain m'.ele er.next rs := by
            refine Seg_frame hrs (fun x hx => ?_)
            rw [hele, Function.update_noteq]
            rintro rfl
            exact hndr.1 hx
          have hls' : Chain m'.ele (some l) (l :: ls) := by
            have h0 : Chain m.ele (some l) (l :: ls) := ⟨rfl, el, hel, hls⟩
            refine Seg_frame h0 (fun x hx => ?_)
            rw [hele, Function.update_noteq]
            rintro rfl
            exact hdis x hx (List.mem_cons_self _ _)
          obtain ⟨m1, hrun, hsv1, hqu1, hfr1, hch1⟩ := ih m' (some l) er.next (l :: ls) rs
            hls' hrs' (fun x hx hxr => hdis x hx (List.mem_cons_of_mem _ hxr))
            (fun x hx => by rw [hsv.valueOf]; exact hvl x hx)
            (fun x hx => by rw [hsv.valueOf]; exact hvr x (List.mem_cons_of_mem _ hx))
            (by simp at hf ⊢; omega)
          refine ⟨m1, ?_, hsv.trans hsv1, hqu1.trans hqu, ?_, ?_⟩
          · rw [hstep, hm']
            exact hrun
          · intro x hxl hxr
            rw [hfr1 x hxl (fun h => hxr (List.mem_cons_of_mem _ h)), hele,
              Function.update_noteq]
            rintro rfl
            exact hxr (List.mem_cons_self _ _)
          · rw [mergeL_cons_ge k ls rs hlt]
            refine ⟨rfl, ⟨er.value, (mergeL k (l :: ls) rs).head?⟩, ?_, hch1⟩
            rw [hfr1 r (fun h => hdis r h (List.mem_cons_self _ _)) hndr.1, hele,
              Function.update_same]

theorem merge_run (k : Nat → List Nat) (fuel : Nat) {m : Mem} {left right : Option Nat}
    {ls rs : List Nat} (hl : Chain m.ele left ls) (hr : Chain m.ele right rs)
    (hdis : ∀ x ∈ ls, x ∉ rs) (hvl : ∀ x ∈ ls, m.valueOf x = some (k x))
    (hvr : ∀ x ∈ rs, m.valueOf x = some (k x)) (hf : ls.length + rs.length < fuel) :
    ∃ m1 h, merge fuel m left right = some (m1, h) ∧ SameValues m m1 ∧
      m1.queue = m.queue ∧ (∀ x, x ∉ ls → x ∉ rs → m1.ele x = m.ele x) ∧
      Chain m1.ele h (mergeL k ls rs) := by
  cases ls with
  | nil =>
    simp only [Chain, Seg] at hl
    subst hl
    refine ⟨m, right, by simp [merge], SameValues.refl m, rfl, fun _ _ _ => rfl, ?_⟩
    rw [mergeL_nil_left]
    exact hr
  | cons l ls =>
    have hleft : left = some l := hl.1
    subst hleft
    cases rs with
    | nil =>
      simp only [Chain, Seg] at hr
      subst hr
      refine ⟨m, some l, by simp [merge], SameValues.refl m, rfl, fun _ _ _ => rfl, ?_⟩
      rw [mergeL_nil_right]
      exact hl
    | cons r rs =>
      have hright : right = some r := hr.1
      subst hright
      obtain ⟨m1, hrun, hsv1, hqu1, hfr1, hch1⟩ :=
        merge_loop_run k fuel m (some l) (some r) (l :: ls) (r :: rs) hl hr hdis hvl hvr hf
      refine ⟨m1, if strcmp (k l) (k r) < 0 then some l else some r, ?_, hsv1, hqu1, hfr1, ?_⟩
      · simp [merge, hvl l (List.mem_cons_self _ _), hvr r (List.mem_cons_self _ _), hrun]
      · rw [mergeL_head] at hch1
        exact hch1

/-! ## The split and the recursion of `mergeSort` -/

theorem split_loop_run :
    ∀ (fuel : Nat) (m : Mem) (singlePtr doublePtr : Option Nat) (ss ds : List Nat),
      Chain m.ele singlePtr ss → Chain m.ele doublePtr ds → ds.length < ss.length →
      ds.length / 2 < fuel →
      split_loop fuel m singlePtr doublePtr = some (ss.get? (ds.length / 2)) := by
  intro fuel
  induction fuel with
  | zero =>
    intro m sp dp ss ds _ _ _ hf
    omega
  | succ f ih =>
    intro m sp dp ss ds hs hd hlen hf
    cases ds with
    | nil =>
      simp only [Chain, Seg] at hd
      subst hd
      cases ss with
      | nil => simp at hlen
      | cons s ss =>
        have := hs.1
        subst this
        simp [split_loop]
    | cons d ds =>
      obtain ⟨hdp, de, hde, hds⟩ := hd
      subst hdp
      cases ds with
      | nil =>
        simp only [Seg] at hds
        cases ss with
        | nil => simp at hlen
        | cons s ss =>
          have := hs.1
          subst this
          simp [split_loop, hde, hds]
      | cons d2 ds =>
        obtain ⟨hd2, d2e, hd2e, hds2⟩ := hds
        cases ss with
        | nil => simp at hlen
        | cons s ss =>
          obtain ⟨hsp, se, hse, hss⟩ := hs
          subst hsp
          have hrec := ih m se.next d2e.next ss ds hss hds2 (by simp at hlen ⊢; omega)
            (by simp at hf ⊢; omega)
          have hidx : (d :: d2 :: ds).length / 2 = ds.length / 2 + 1 := by
            simp only [List.length_cons]
            omega
          rw [hidx]
          simp [split_loop, hde, hd2, hse, hd2e, hrec]

theorem Seg_setLast {ele : Nat → Option list_ele_t} {as : List Nat} {a : Nat}
    {p r : Option Nat} (h : Seg ele p (as ++ [a]) r) (hna : a ∉ as) :
    ∃ e, ele a = some e ∧ e.next = r ∧
      ∀ r1, Seg (Function.update ele a (some ⟨e.value, r1⟩)) p (as ++ [a]) r1 := by
  obtain ⟨mid, h1, h2⟩ := Seg_append.mp h
  obtain ⟨hmid, e, he, hnx⟩ := h2
  simp only [Seg] at hnx
  refine ⟨e, he, hnx, fun r1 => Seg_append.mpr ⟨mid, Seg_frame h1 (fun x hx => ?_), ?_⟩⟩
  · rw [Function.update_noteq]
    rintro rfl
    exact hna hx
  · exact ⟨hmid, _, Function.update_same _ _ _, rfl⟩

theorem mergeSort_run (k : Nat → List Nat) :
    ∀ (fuel : Nat) (m : Mem) (head : Option Nat) (as : List Nat),
      Chain m.ele head as → (∀ x ∈ as, m.valueOf x = some (k x)) → as.length < fuel →
      ∃ m1 h bs, mergeSort fuel m head = some (m1, h) ∧ Chain m1.ele h bs ∧
        bs.Perm as ∧ StrSorted (bs.map k) ∧ SameValues m m1 ∧ m1.queue = m.queue ∧
        (∀ x, x ∉ as → m1.ele x = m.ele x) ∧ (as.length ≤ 1 → m1 = m ∧ bs = as) := by
  intro fuel
  induction fuel with
  | zero =>
    intro m head as _ _ hf
    omega
  | succ f ih =>
    intro m head as hch hv hf
    cases as with
    | nil =>
      simp only [Chain, Seg] at hch
      subst hch
      exact ⟨m, none, [], by simp [mergeSort], rfl, List.Perm.refl _, List.Pairwise.nil,
        SameValues.refl m, rfl, fun _ _ => rfl, fun _ => ⟨rfl, rfl⟩⟩
    | cons a as =>
      have hnd := Chain_nodup hch
      obtain ⟨hhead, ea, hea, hrest⟩ := hch
      subst hhead
      cases as with
      | nil =>
        simp only [Seg] at hrest
        refine ⟨m, some a, [a], by simp [mergeSort, hea, hrest], ⟨rfl, ea, hea, hrest⟩,
          List.Perm.refl _, ?_, SameValues.refl m, rfl, fun _ _ => rfl, fun _ => ⟨rfl, rfl⟩⟩
        simp [StrSorted]
      | cons a2 as =>
        have hch : Chain m.ele (some a) (a :: a2 :: as) := ⟨rfl, ea, hea, hrest⟩
        have hnext : ea.next = some a2 := hrest.1
        -- the slow/fast walk stops on the element of index `(n - 1) / 2`
        have hsplit := split_loop_run (f + 1) m (some a) ea.next (a :: a2 :: as) (a2 :: as)
          hch hrest (by simp) (by simp at hf ⊢; omega)
        set i := (a2 :: as).length / 2 with hi
        have hilt : i < (a :: a2 :: as).length := by
          simp only [List.length_cons] at hi ⊢
          omega
        have hget : (a :: a2 :: as).get? i = some ((a :: a2 :: as).get ⟨i, hilt⟩) :=
          List.get?_eq_get hilt
        set sa := (a :: a2 :: as).get ⟨i, hilt⟩ with hsa
        set L := (a :: a2 :: as).take (i + 1) with hL
        set R := (a :: a2 :: as).drop (i + 1) with hR
        have hLR : L ++ R = a :: a2 :: as := List.take_append_drop _ _
        have hLeq : L = (a :: a2 :: as).take i ++ [sa] := by
          have hget2 : (a :: a2 :: as)[i]? = some sa := by
            rw [← List.get?_eq_getElem?]
            exact hget
          rw [hL, List.take_succ, hget2]
          rfl
        have hndLR : (L ++ R).Nodup := by rw [hLR]; exact hnd
        have hndL := (List.nodup_append.mp hndLR).1
        have hdisj : ∀ x ∈ L, x ∉ R := fun x hx hxr =>
          (List.nodup_append.mp hndLR).2.2 hx hxr
        have hsaL : sa ∈ L := by rw [hLeq]; simp
        have hsaT : sa ∉ (a :: a2 :: as).take i := by
          intro h
          rw [hLeq] at hndL
          exact (List.nodup_append.mp hndL).2.2 h (List.mem_singleton_self _)
        have hLlen : L.length = i + 1 := by
          rw [hL, List.length_take]
          omega
        have hRlen : R.length = (a :: a2 :: as).length - (i + 1) := by
          rw [hR, List.length_drop]
        have hch2 : Chain m.ele (some a) (L ++ R) := by rw [hLR]; exact hch
        obtain ⟨mid, hsegL, hchR⟩ := Seg_append.mp hch2
        rw [hLeq] at hsegL
        obtain ⟨se, hse, hsenext, hcut⟩ := Seg_setLast hsegL hsaT
        obtain ⟨m', hm'⟩ : ∃ m', m.setNext sa none = some m' := by simp [Mem.setNext, hse]
        obtain ⟨hsv, hqu, e0, he0, hele⟩ := setNext_sameValues hm'
        rw [hse] at he0
        cases he0
        have hchL' : Chain m'.ele (some a) L := by
          rw [hele, hLeq]
          exact hcut none
        have hchR' : Chain m'.ele mid R := by
          refine Seg_frame hchR (fun x hx => ?_)
          rw [hele, Function.update_noteq]
          intro hxs
          rw [hxs] at hx
          exact hdisj sa hsaL hx
        have hsubL : ∀ x ∈ L, x ∈ a :: a2 :: as := fun x hx => by
          rw [← hLR]; exact List.mem_append_left _ hx
        have hsubR : ∀ x ∈ R, x ∈ a :: a2 :: as := fun x hx => by
          rw [← hLR]; exact List.mem_append_right _ hx
        have hlenL : L.length < f := by
          rw [hLlen]
          simp only [List.length_cons] at hi hf
          omega
        have hlenR : R.length < f := by
          rw [hRlen]
          simp only [List.length_cons] at hi hf ⊢
          omega
        -- the two recursive calls
        obtain ⟨m1, h1, bs1, hrun1, hch1, hperm1, hsort1, hsv1, hqu1, hfr1, _⟩ :=
          ih m' (some a) L hchL'
            (fun x hx => by rw [hsv.valueOf]; exact hv x (hsubL x hx)) hlenL
        have hchR1 : Chain m1.ele mid R :=
          Seg_frame hchR' (fun x hx => hfr1 x (fun hxl => hdisj x hxl hx))
        obtain ⟨m2, h2, bs2, hrun2, hch2', hperm2, hsort2, hsv2, hqu2, hfr2, _⟩ :=
          ih m1 mid R hchR1
            (fun x hx => by
              rw [hsv1.valueOf, hsv.valueOf]; exact hv x (hsubR x hx)) hlenR
        have hch1' : Chain m2.ele h1 bs1 :=
          Seg_frame hch1 (fun x hx => hfr2 x (fun hxr => hdisj x (hperm1.subset hx) hxr))
        -- the merge
        have hsv02 := (hsv.trans hsv1).trans hsv2
        obtain ⟨m3, h3, hrun3, hsv3, hqu3, hfr3, hch3⟩ := merge_run k (f + 1) hch1' hch2'
          (fun x hx hxr => hdisj x (hperm1.subset hx) (hperm2.subset hxr))
          (fun x hx => by rw [hsv02.valueOf]; exact hv x (hsubL x (hperm1.subset hx)))
          (fun x hx => by rw [hsv02.valueOf]; exact hv x (hsubR x (hperm2.subset hx)))
          (by
            rw [hperm1.length_eq, hperm2.length_eq, hLlen, hRlen]
            simp only [List.length_cons] at hi hf ⊢
            omega)
        refine ⟨m3, h3, mergeL k bs1 bs2, ?_, hch3, ?_, ?_, hsv02.trans hsv3,
          ((hqu3.trans hqu2).trans hqu1).trans hqu, ?_, ?_⟩
        · have hsplit' : split_loop (f + 1) m (some a) (some a2) = some (some sa) := by
            rw [← hnext, hsplit, hget]
          have hmid : se.next = mid := hsenext
          simp [mergeSort, hea, hnext, hsplit', hse, hm', hmid, hrun1, hrun2, hrun3]
        · refine (mergeL_perm k _ bs1 bs2 rfl).trans ?_
          rw [← hLR]
          exact hperm1.append hperm2
        · exact mergeL_sorted k _ bs1 bs2 rfl hsort1 hsort2
        · intro x hx
          have hxL : x ∉ L := fun h => hx (hsubL x h)
          have hxR : x ∉ R := fun h => hx (hsubR x h)
          rw [hfr3 x (fun h => hxL (hperm1.subset h)) (fun h => hxR (hperm2.subset h)),
            hfr2 x hxR, hfr1 x hxL, hele, Function.update_noteq]
          intro hxs
          rw [hxs] at hxL
          exact hxL hsaL
        · intro hle
          simp at hle

/-! ## Sorting the queue -/

theorem q_sort_tail_loop_run (suffix : List Nat) :
    ∀ (fuel : Nat) (m : Mem) (qa : Nat) (q : queue_t) (t : Nat),
      m.queue qa = some q → q.tail = some t → Chain m.ele (some t) (t :: suffix) →
      suffix.length < fuel →
      ∃ m1, q_sort_tail_loop fuel m qa = some m1 ∧ m1.ele = m.ele ∧ m1.str = m.str ∧
        m1.queue qa = some ⟨q.head, (t :: suffix).getLast?, q.size⟩ := by
  induction suffix with
  | nil =>
    intro fuel m qa q t hq ht hch hf
    obtain ⟨f, rfl⟩ : ∃ f, fuel = f + 1 := ⟨fuel - 1, by omega⟩
    obtain ⟨_, te, hte, hnx⟩ := hch
    simp only [Seg] at hnx
    refine ⟨m, by simp [q_sort_tail_loop, hq, ht, hte, hnx], rfl, rfl, ?_⟩
    rw [hq]
    cases q with
    | mk hd tl sz =>
      simp only at ht
      simp [ht]
  | cons s suffix ih =>
    intro fuel m qa q t hq ht hch hf
    obtain ⟨f, rfl⟩ : ∃ f, fuel = f + 1 := ⟨fuel - 1, by omega⟩
    obtain ⟨_, te, hte, hnx⟩ := hch
    have hs : te.next = some s := hnx.1
    rw [hs] at hnx
    obtain ⟨m1, hrun, hele, hstr, hq1⟩ := ih f
      ⟨Function.update m.queue qa (some ⟨q.head, some s, q.size⟩), m.ele, m.str⟩ qa
      ⟨q.head, some s, q.size⟩ s (by simp) rfl hnx (by simp at hf; omega)
    refine ⟨m1, ?_, hele, hstr, ?_⟩
    · simp [q_sort_tail_loop, hq, ht, hte, hs, Mem.setTail, hrun]
    · rw [hq1]
      simp

theorem q_sort_run {m : Mem} {qa : Nat} {nodes : List Nat} {vals : List (List Nat)}
    (hinv : Inv m qa nodes vals) {fuel : Nat} (hf : nodes.length < fuel) :
    ∃ m1 nodes1, q_sort fuel m (some qa) = some m1 ∧ Inv m1 qa nodes1 (nodes1.map m.valD) ∧
      nodes1.Perm nodes ∧ StrSorted (nodes1.map m.valD) ∧ SameValues m m1 ∧
      (nodes.length ≤ 1 → m1 = m ∧ nodes1 = nodes) := by
  obtain ⟨q, hq, hch, htail, hsize⟩ := hinv.chain
  by_cases hlen : nodes.length ≤ 1
  · have hcond : ¬ (q.head.isSome = true ∧ q.size > 1) := by
      rintro ⟨_, h⟩
      rw [hsize] at h
      omega
    refine ⟨m, nodes, by simp only [q_sort, hq, Option.bind_eq_bind, Option.some_bind,
      if_neg hcond], ?_, List.Perm.refl _, ?_, SameValues.refl m, fun _ => ⟨rfl, rfl⟩⟩
    · rw [← hinv.vals_eq]
      exact hinv
    · unfold StrSorted
      match nodes, hlen with
      | [], _ => simp
      | [a], _ => simp
  · have hv : ∀ x ∈ nodes, m.valueOf x = some (m.valD x) := by
      intro x hx
      obtain ⟨_, _, s, _, _, _, _, hval⟩ := hinv.value_alloc hx
      simp [Mem.valD, hval]
    obtain ⟨m1, h, bs, hrun, hchb, hperm, hsort, hsv, hqu, _, _⟩ :=
      mergeSort_run m.valD fuel m q.head nodes hch hv hf
    have hne : nodes ≠ [] := by
      rintro rfl
      simp at hlen
    obtain ⟨t, htl⟩ : ∃ t, nodes.getLast? = some t := by
      cases hn : nodes.getLast? with
      | none => exact absurd (List.getLast?_eq_none_iff.mp hn) hne
      | some t => exact ⟨t, rfl⟩
    have htmem : t ∈ bs := hperm.symm.subset (List.mem_of_getLast?_eq_some htl)
    obtain ⟨pre, suf, hbs⟩ := List.append_of_mem htmem
    have hcht : Chain m1.ele (some t) (t :: suf) := by
      rw [hbs] at hchb
      obtain ⟨mid, _, h2⟩ := Seg_append.mp hchb
      obtain ⟨_, e, he, hs⟩ := h2
      exact ⟨rfl, e, he, hs⟩
    have hsuf : suf.length < fuel := by
      have h1 := hperm.length_eq
      rw [hbs] at h1
      simp at h1
      omega
    obtain ⟨m3, hrun3, hele3, hstr3, hq3⟩ := q_sort_tail_loop_run suf fuel
      ⟨Function.update m1.queue qa (some ⟨h, q.tail, q.size⟩), m1.ele, m1.str⟩ qa
      ⟨h, q.tail, q.size⟩ t (by simp) (by simp [htail, htl]) hcht hsuf
    have hcond : q.head.isSome = true ∧ q.size > 1 := by
      constructor
      · cases nodes with
        | nil => exact absurd rfl hne
        | cons a as =>
          rw [hch.1]
          rfl
      · rw [hsize]
        omega
    have hsv3 : SameValues m m3 := by
      refine ⟨by rw [hstr3]; exact hsv.str, fun x => ?_⟩
      rw [← hsv.ptr x]
      simp only [Mem.ptrOf, hele3]
    have hlast : (t :: suf).getLast? = bs.getLast? := by
      rw [hbs, List.getLast?_append, List.getLast?_cons]
      simp
    refine ⟨m3, bs, ?_, ?_, hperm, hsort, hsv3, fun h => absurd h hlen⟩
    · have hq1 : m1.queue qa = some q := by rw [hqu, hq]
      simp only [q_sort, hq, Option.bind_eq_bind, Option.some_bind, if_pos hcond, hrun,
        Mem.setHead, hq1]
      exact hrun3
    · refine Inv_relink hinv hsv3 ⟨h, (t :: suf).getLast?, q.size⟩ bs hq hq3 ?_ hperm hlast rfl
      rw [hele3]
      exact hchb

/-! ## More fuel never changes a result -/

theorem q_reverse_loop_mono :
    ∀ (fuel : Nat) (m : Mem) (prev : Option Nat) (curr : Nat) (next : Option Nat)
      (r : Mem × Option Nat × Nat),
      q_reverse_loop fuel m prev curr next = some r →
      q_reverse_loop (fuel + 1) m prev curr next = some r := by
  intro fuel
  induction fuel with
  | zero =>
    intro m prev curr next r h
    simp [q_reverse_loop] at h
  | succ f ih =>
    intro m prev curr next r h
    cases next with
    | none =>
      rw [q_reverse_loop] at h ⊢
      exact h
    | some n =>
      rw [q_reverse_loop] at h ⊢
      simp only [Option.bind_eq_bind, Option.bind_eq_some] at h ⊢
      obtain ⟨m', h1, ne, h2, h3⟩ := h
      exact ⟨m', h1, ne, h2, ih _ _ _ _ _ h3⟩

theorem merge_loop_mono :
    ∀ (fuel : Nat) (m : Mem) (left right : Option Nat) (r : Mem),
      merge_loop fuel m left right = some r → merge_loop (fuel + 1) m left right = some r := by
  intro fuel
  induction fuel with
  | zero =>
    intro m left right r h
    simp [merge_loop] at h
  | succ f ih =>
    intro m left right r h
    cases left with
    | none => simpa [merge_loop] using h
    | some l =>
      cases right with
      | none => simpa [merge_loop] using h
      | some rr =>
        rw [merge_loop] at h ⊢
        simp only [Option.bind_eq_bind, Option.bind_eq_some] at h ⊢
        obtain ⟨lv, hlv, rv, hrv, h⟩ := h
        refine ⟨lv, hlv, rv, hrv, ?_⟩
        by_cases hlt : strcmp lv rv < 0
        · rw [if_pos hlt] at h ⊢
          simp only [Option.bind_eq_some] at h ⊢
          obtain ⟨le, hle, m', hm', h⟩ := h
          exact ⟨le, hle, m', hm', ih _ _ _ _ h⟩
        · rw [if_neg hlt] at h ⊢
          simp only [Option.bind_eq_some] at h ⊢
          obtain ⟨re, hre, m', hm', h⟩ := h
          exact ⟨re, hre, m', hm', ih _ _ _ _ h⟩

theorem merge_mono (fuel : Nat) (m : Mem) (left right : Option Nat) (r : Mem × Option Nat)
    (h : merge fuel m left right = some r) : merge (fuel + 1) m left right = some r := by
  unfold merge at h ⊢
  cases left with
  | none => exact h
  | some l =>
    cases right with
    | none => exact h
    | some rr =>
      simp only [Option.bind_eq_bind, Option.bind_eq_some] at h ⊢
      obtain ⟨lv, hlv, rv, hrv, m', hm', h⟩ := h
      exact ⟨lv, hlv, rv, hrv, m', merge_loop_mono _ _ _ _ _ hm', h⟩

theorem split_loop_mono :
    ∀ (fuel : Nat) (m : Mem) (singlePtr doublePtr : Option Nat) (r : Option Nat),
      split_loop fuel m singlePtr doublePtr = some r →
      split_loop (fuel + 1) m singlePtr doublePtr = some r := by
  intro fuel
  induction fuel with
  | zero =>
    intro m sp dp r h
    simp [split_loop] at h
  | succ f ih =>
    intro m sp dp r h
    cases dp with
    | none =>
      rw [split_loop] at h ⊢
      exact h
    | some d =>
      rw [split_loop] at h ⊢
      simp only [Option.bind_eq_bind, Option.bind_eq_some] at h ⊢
      obtain ⟨de, hde, h⟩ := h
      refine ⟨de, hde, ?_⟩
      cases hn : de.next with
      | none =>
        rw [hn] at h
        exact h
      | some dn =>
        rw [hn] at h
        simp only [Option.bind_eq_some] at h ⊢
        obtain ⟨sa, hsa, se, hse, dne, hdne, h⟩ := h
        exact ⟨sa, hsa, se, hse, dne, hdne, ih _ _ _ _ h⟩

theorem mergeSort_mono :
    ∀ (fuel : Nat) (m : Mem) (head : Option Nat) (r : Mem × Option Nat),
      mergeSort fuel m head = some r → mergeSort (fuel + 1) m head = some r := by
  intro fuel
  induction fuel with
  | zero =>
    intro m head r h
    simp [mergeSort] at h
  | succ f ih =>
    intro m head r h
    cases head with
    | none =>
      rw [mergeSort] at h ⊢
      exact h
    | some hd =>
      rw [mergeSort] at h ⊢
      simp only [Option.bind_eq_bind, Option.bind_eq_some] at h ⊢
      obtain ⟨he, hhe, h⟩ := h
      refine ⟨he, hhe, ?_⟩
      cases hn : he.next with
      | none =>
        rw [hn] at h
        exact h
      | some n2 =>
        rw [hn] at h
        simp only [Option.bind_eq_some] at h ⊢
        obtain ⟨sp, hsp, sa, hsa, se, hse, m', hm', r1, hr1, r2, hr2, h⟩ := h
        exact ⟨sp, split_loop_mono _ _ _ _ _ hsp, sa, hsa, se, hse, m', hm', r1, ih _ _ _ hr1,
          r2, ih _ _ _ hr2, merge_mono _ _ _ _ _ h⟩

theorem q_sort_tail_loop_mono :
    ∀ (fuel : Nat) (m : Mem) (qa : Nat) (r : Mem),
      q_sort_tail_loop fuel m qa = some r → q_sort_tail_loop (fuel + 1) m qa = some r := by
  intro fuel
  induction fuel with
  | zero =>
    intro m qa r h
    simp [q_sort_tail_loop] at h
  | succ f ih =>
    intro m qa r h
    rw [q_sort_tail_loop] at h ⊢
    simp only [Option.bind_eq_bind, Option.bind_eq_some] at h ⊢
    obtain ⟨q0, hq0, t, ht, te, hte, h⟩ := h
    refine ⟨q0, hq0, t, ht, te, hte, ?_⟩
    cases hn : te.next with
    | none =>
      rw [hn] at h
      exact h
    | some n =>
      rw [hn] at h
      simp only [Option.bind_eq_some] at h ⊢
      obtain ⟨m', hm', h⟩ := h
      exact ⟨m', hm', ih _ _ _ h⟩

theorem q_reverse_mono (fuel : Nat) (m : Mem) (q : Option Nat) (r : Mem)
    (h : q_reverse fuel m q = some r) : q_reverse (fuel + 1) m q = some r := by
  unfold q_reverse at h ⊢
  cases q with
  | none => exact h
  | some qa =>
    simp only [Option.bind_eq_bind, Option.bind_eq_some] at h ⊢
    obtain ⟨q0, hq0, h⟩ := h
    refine ⟨q0, hq0, ?_⟩
    cases hh : q0.head with
    | none =>
      rw [hh] at h
      exact h
    | some hd =>
      rw [hh] at h
      simp only [Option.bind_eq_some] at h ⊢
      obtain ⟨m', hm', he, hhe, r1, hr1, h⟩ := h
      exact ⟨m', hm', he, hhe, r1, q_reverse_loop_mono _ _ _ _ _ _ hr1, h⟩

theorem q_sort_mono (fuel : Nat) (m : Mem) (q : Option Nat) (r : Mem)
    (h : q_sort fuel m q = some r) : q_sort (fuel + 1) m q = some r := by
  unfold q_sort at h ⊢
  cases q with
  | none => exact h
  | some qa =>
    simp only [Option.bind_eq_bind, Option.bind_eq_some] at h ⊢
    obtain ⟨q0, hq0, h⟩ := h
    refine ⟨q0, hq0, ?_⟩
    by_cases hc : q0.head.isSome = true ∧ q0.size > 1
    · rw [if_pos hc] at h ⊢
      simp only [Option.bind_eq_some] at h ⊢
      obtain ⟨r1, hr1, m', hm', h⟩ := h
      exact ⟨r1, mergeSort_mono _ _ _ _ hr1, m', hm', q_sort_tail_loop_mono _ _ _ _ h⟩
    · rw [if_neg hc] at h ⊢
      exact h

theorem q_reverse_mono_le {fuel fuel1 : Nat} {m : Mem} {q : Option Nat} {r : Mem}
    (h : q_reverse fuel m q = some r) (hle : fuel ≤ fuel1) :
    q_reverse fuel1 m q = some r := by
  induction hle with
  | refl => exact h
  | step _ ih => exact q_reverse_mono _ _ _ _ ih

theorem q_sort_mono_le {fuel fuel1 : Nat} {m : Mem} {q : Option Nat} {r : Mem}
    (h : q_sort fuel m q = some r) (hle : fuel ≤ fuel1) :
    q_sort fuel1 m q = some r := by
  induction hle with
  | refl => exact h
  | step _ ih => exact q_sort_mono _ _ _ _ ih

/-! ## Failed allocations -/

theorem update_update_none {α : Type} (f : Nat → Option α) (a : Nat) (x : α)
    (h : f a = none) : Function.update (Function.update f a (some x)) a none = f := by
  rw [Function.update_idem]
  funext y
  by_cases hy : y = a
  · subst hy
    simp [h]
  · simp [Function.update_noteq hy]

theorem q_insert_head_fail {m : Mem} {qa : Nat} (s : List Nat) {newh news : Option Nat}
    (hh : FreshEle m newh) (hs : FreshStr m news) (hnone : newh = none ∨ news = none) :
    q_insert_head m (some qa) s newh news = some (false, m) := by
  cases newh with
  | none =>
    cases news with
    | none => simp [q_insert_head, malloc_ele, malloc_str, free_ele, free_str]
    | some b =>
      simp [q_insert_head, malloc_ele, malloc_str, free_ele, free_str,
        update_update_none m.str b [] (hs b rfl)]
  | some a =>
    cases news with
    | none =>
      simp [q_insert_head, malloc_ele, malloc_str, free_ele, free_str,
        update_update_none m.ele a ⟨none, none⟩ (hh a rfl)]
    | some b => simp at hnone

theorem q_insert_tail_fail {m : Mem} {qa : Nat} (s : List Nat) {newt news : Option Nat}
    (hh : FreshEle m newt) (hs : FreshStr m news) (hnone : newt = none ∨ news = none) :
    q_insert_tail m (some qa) s newt news = some (false, m) := by
  cases newt with
  | none =>
    cases news with
    | none => simp [q_insert_tail, malloc_ele, malloc_str, free_ele, free_str]
    | some b =>
      simp [q_insert_tail, malloc_ele, malloc_str, free_ele, free_str,
        update_update_none m.str b [] (hs b rfl)]
  | some a =>
    cases news with
    | none =>
      simp [q_insert_tail, malloc_ele, malloc_str, free_ele, free_str,
        update_update_none m.ele a ⟨none, none⟩ (hh a rfl)]
    | some b => simp at hnone

/-! ## The invariant along every run -/

theorem q_new_inv {m0 m : Mem} {qa : Nat} (h : q_new m0 (some qa) = some (some qa, m)) :
    Inv m qa [] [] := by
  simp [q_new, malloc_queue, Mem.setHead, Mem.setTail, Mem.setSize] at h
  subst h
  exact ⟨⟨⟨none, none, 0⟩, by simp, rfl, rfl, rfl⟩, rfl, List.nodup_nil⟩

theorem Inv.vals_length {m : Mem} {qa : Nat} {nodes : List Nat} {vals : List (List Nat)}
    (hinv : Inv m qa nodes vals) : vals.length = nodes.length := by
  rw [hinv.vals_eq, List.length_map]

theorem reachable_inv {qa : Nat} {m : Mem} (h : Reachable qa m) :
    ∃ nodes vals, Inv m qa nodes vals := by
  induction h with
  | new m0 m h => exact ⟨[], [], q_new_inv h⟩
  | insert_head m m1 s newh news r _ hh hs hrun ih =>
    obtain ⟨nodes, vals, hinv⟩ := ih
    cases hnh : newh with
    | none =>
      rw [q_insert_head_fail s hh hs (Or.inl hnh)] at hrun
      cases hrun
      exact ⟨nodes, vals, hinv⟩
    | some a =>
      cases hns : news with
      | none =>
        rw [q_insert_head_fail s hh hs (Or.inr hns)] at hrun
        cases hrun
        exact ⟨nodes, vals, hinv⟩
      | some b =>
        subst hnh hns
        obtain ⟨m2, _, _, hr, hI, _⟩ := q_insert_head_run s hinv (hh a rfl) (hs b rfl)
        rw [hr] at hrun
        cases hrun
        exact ⟨_, _, hI⟩
  | insert_tail m m1 s newt news r _ hh hs hrun ih =>
    obtain ⟨nodes, vals, hinv⟩ := ih
    cases hnh : newt with
    | none =>
      rw [q_insert_tail_fail s hh hs (Or.inl hnh)] at hrun
      cases hrun
      exact ⟨nodes, vals, hinv⟩
    | some a =>
      cases hns : news with
      | none =>
        rw [q_insert_tail_fail s hh hs (Or.inr hns)] at hrun
        cases hrun
        exact ⟨nodes, vals, hinv⟩
      | some b =>
        subst hnh hns
        obtain ⟨m2, _, _, hr, hI, _⟩ := q_insert_tail_run s hinv (hh a rfl) (hs b rfl)
        rw [hr] at hrun
        cases hrun
        exact ⟨_, _, hI⟩
  | remove_head m m1 sp sp1 k r _ hrun ih =>
    obtain ⟨nodes, vals, hinv⟩ := ih
    cases nodes with
    | nil =>
      rw [q_remove_head_empty hinv] at hrun
      cases hrun
      exact ⟨[], vals, hinv⟩
    | cons x rest =>
      cases vals with
      | nil =>
        have := hinv.vals_length
        simp at this
      | cons v vals =>
        obtain ⟨m2, _, _, hr, hI, _⟩ := q_remove_head_run hinv sp k
        rw [hr] at hrun
        cases hrun
        exact ⟨_, _, hI⟩
  | reverse m m1 fuel _ hrun ih =>
    obtain ⟨nodes, vals, hinv⟩ := ih
    obtain ⟨m2, hr, hI, _⟩ := q_reverse_run hinv (Nat.le_max_right fuel nodes.length)
    rw [q_reverse_mono_le hrun (Nat.le_max_left fuel nodes.length)] at hr
    cases hr
    exact ⟨_, _, hI⟩
  | sort m m1 fuel _ hrun ih =>
    obtain ⟨nodes, vals, hinv⟩ := ih
    obtain ⟨m2, nodes1, hr, hI, _⟩ := q_sort_run hinv
      (Nat.lt_of_lt_of_le (Nat.lt_succ_self _) (Nat.le_max_right fuel (nodes.length + 1)))
    rw [q_sort_mono_le hrun (Nat.le_max_left fuel (nodes.length + 1))] at hr
    cases hr
    exact ⟨_, _, hI⟩

theorem Inv.ends {m : Mem} {qa : Nat} {nodes : List Nat} {vals : List (List Nat)}
    (hinv : Inv m qa nodes vals) {q : queue_t} (hq : m.queue qa = some q) :
    Chain m.ele q.head nodes ∧ q.size = nodes.length ∧
      q.head = nodes.head? ∧ q.tail = nodes.getLast? ∧
      ∀ t, q.tail = some t → ∃ e, m.ele t = some e ∧ e.next = none := by
  obtain ⟨q0, hq0, hch, htail, hsize⟩ := hinv.chain
  rw [hq] at hq0
  cases hq0
  refine ⟨hch, hsize, Chain_head hch, htail, fun t ht => ?_⟩
  rw [htail] at ht
  obtain ⟨init, hinit⟩ := List.getLast?_eq_some_iff.mp ht
  rw [hinit] at hch
  obtain ⟨e, he, hnx, _⟩ := Seg_setLast hch (by
    have := Chain_nodup hch
    intro hmem
    exact (List.nodup_append.mp this).2.2 hmem (List.mem_singleton_self t))
  exact ⟨e, he, hnx⟩

theorem memFirst_new : q_new memEmpty (some 0) = some (some 0, memFirst) := by
  simp [q_new, malloc_queue, Mem.setHead, Mem.setTail, Mem.setSize, memEmpty, memFirst]

theorem memSecond_insert :
    q_insert_tail memFirst (some 0) [98] (some 1) (some 11) = some (true, memSecond) := by
  obtain ⟨m1, _, _, hr, _⟩ :=
    q_insert_tail_run [98] (q_new_inv memFirst_new) (rfl : memFirst.ele 1 = none)
      (rfl : memFirst.str 11 = none)
  unfold memSecond
  rw [hr]
  rfl

/-! ## The claims on sorting, reversal and reachable states -/

/-- C1: on a queue satisfying the invariants, with any number of elements and
with duplicates allowed, `q_sort` returns (given fuel beyond the number of
elements); afterwards the queue satisfies the invariants for a chain `nodes1`
and strings `vals1` such that `vals1` is non-decreasing under `strcmp`,
`vals1` is a permutation of the strings before the call, `nodes1` is a
permutation of the elements before the call, and every element holds the
string it held before. -/
theorem q_sort_sorted_perm (m : Mem) (qa : Nat) (nodes : List Nat) (vals : List (List Nat))
    (fuel : Nat) (hinv : Inv m qa nodes vals) (hf : nodes.length < fuel) :
    ∃ m1 nodes1 vals1, q_sort fuel m (some qa) = some m1 ∧ Inv m1 qa nodes1 vals1 ∧
      vals1.Pairwise (fun a b => strcmp a b ≤ 0) ∧ vals1.Perm vals ∧ nodes1.Perm nodes ∧
      ∀ x, m1.valueOf x = m.valueOf x := by
  obtain ⟨m1, nodes1, hrun, hI, hperm, hsort, hsv, _⟩ := q_sort_run hinv hf
  refine ⟨m1, nodes1, nodes1.map m.valD, hrun, hI, hsort, ?_, hperm, hsv.valueOf⟩
  rw [hinv.vals_eq]
  exact hperm.map _

theorem q_sort_sorted_perm_witness :
    ∃ m1 nodes1 vals1, q_sort 4 memBAC (some 0) = some m1 ∧ Inv m1 0 nodes1 vals1 ∧
      vals1.Pairwise (fun a b => strcmp a b ≤ 0) ∧ vals1.Perm [[98], [97], [99]] ∧
      nodes1.Perm [1, 2, 3] ∧ ∀ x, m1.valueOf x = memBAC.valueOf x :=
  q_sort_sorted_perm memBAC 0 [1, 2, 3] [[98], [97], [99]] 4 memBAC_inv (by decide)

/-- C6: on a queue satisfying the invariants, `q_reverse` returns (given fuel of
at least the number of elements); afterwards the chain read from head is the
reverse of the chain before, with the reversed strings; the new head is the old
tail, the new tail is the old head, the link of the new tail is terminal; on an
empty queue the memory is unchanged, and on an absent queue too. -/
theorem q_reverse_reverses (m : Mem) (qa : Nat) (nodes : List Nat) (vals : List (List Nat))
    (fuel : Nat) (hinv : Inv m qa nodes vals) (hf : nodes.length ≤ fuel) :
    q_reverse fuel m none = some m ∧
    ∃ m1 q q1, q_reverse fuel m (some qa) = some m1 ∧
      Inv m1 qa nodes.reverse vals.reverse ∧
      m.queue qa = some q ∧ m1.queue qa = some q1 ∧
      q1.head = q.tail ∧ q1.tail = q.head ∧
      (∀ t, q1.tail = some t → ∃ e, m1.ele t = some e ∧ e.next = none) ∧
      (nodes = [] → m1 = m) := by
  refine ⟨rfl, ?_⟩
  obtain ⟨m1, hrun, hI, _, hnil⟩ := q_reverse_run hinv hf
  obtain ⟨q, hq, _⟩ := hinv.chain
  obtain ⟨q1, hq1, _⟩ := hI.chain
  have h0 := hinv.ends hq
  have h1 := hI.ends hq1
  refine ⟨m1, q, q1, hrun, hI, hq, hq1, ?_, ?_, h1.2.2.2.2, hnil⟩
  · rw [h1.2.2.1, h0.2.2.2.1, List.head?_reverse]
  · rw [h1.2.2.2.1, h0.2.2.1, List.getLast?_reverse]

theorem q_reverse_reverses_witness :
    q_reverse 3 memBAC none = some memBAC ∧
    ∃ m1 q q1, q_reverse 3 memBAC (some 0) = some m1 ∧
      Inv m1 0 [1, 2, 3].reverse [[98], [97], [99]].reverse ∧
      memBAC.queue 0 = some q ∧ m1.queue 0 = some q1 ∧
      q1.head = q.tail ∧ q1.tail = q.head ∧
      (∀ t, q1.tail = some t → ∃ e, m1.ele t = some e ∧ e.next = none) ∧
      (([1, 2, 3] : List Nat) = [] → m1 = memBAC) :=
  q_reverse_reverses memBAC 0 [1, 2, 3] [[98], [97], [99]] 3 memBAC_inv (by decide)

/-- C7: every memory reachable from `q_new` by calls of `q_insert_head`,
`q_insert_tail`, `q_remove_head`, `q_reverse` and `q_sort`, whether they succeed
or fail, holds a queue whose `size` is the number of elements on the chain from
`head`, with `size` zero exactly when `head` is `NULL` and exactly when `tail`
is `NULL`, and, when `size` is positive, with `tail` the last element of the
chain and its link terminal. -/
theorem reachable_invariants (qa : Nat) (m : Mem) (h : Reachable qa m) :
    ∃ q nodes, m.queue qa = some q ∧ Chain m.ele q.head nodes ∧
      q.size = nodes.length ∧
      (q.size = 0 ↔ q.head = none) ∧ (q.head = none ↔ q.tail = none) ∧
      (0 < q.size → ∃ t e, q.tail = some t ∧ nodes.getLast? = some t ∧
        m.ele t = some e ∧ e.next = none) := by
  obtain ⟨nodes, vals, hinv⟩ := reachable_inv h
  obtain ⟨q, hq, _⟩ := hinv.chain
  obtain ⟨hch, hsize, hhead, htail, hlast⟩ := hinv.ends hq
  refine ⟨q, nodes, hq, hch, hsize, ?_, ?_, ?_⟩
  · rw [hsize, hhead]
    cases nodes with
    | nil => simp
    | cons a as =>
      simp only [List.length_cons, List.head?_cons]
      constructor
      · intro h0
        push_cast at h0
        omega
      · intro h0
        cases h0
  · rw [hhead, htail]
    cases nodes with
    | nil => simp
    | cons a as => simp [List.getLast?_cons]
  · intro hpos
    cases hn : nodes.getLast? with
    | none =>
      rw [List.getLast?_eq_none_iff.mp hn] at hsize
      simp at hsize
      omega
    | some t =>
      obtain ⟨e, he, hnx⟩ := hlast t (htail.trans hn)
      exact ⟨t, e, htail.trans hn, rfl, he, hnx⟩

theorem reachable_invariants_witness :
    ∃ q nodes, memSecond.queue 0 = some q ∧ Chain memSecond.ele q.head nodes ∧
      q.size = nodes.length ∧
      (q.size = 0 ↔ q.head = none) ∧ (q.head = none ↔ q.tail = none) ∧
      (0 < q.size → ∃ t e, q.tail = some t ∧ nodes.getLast? = some t ∧
        memSecond.ele t = some e ∧ e.next = none) :=
  reachable_invariants 0 memSecond
    (Reachable.insert_tail memFirst memSecond [98] (some 1) (some 11) true
      (Reachable.new memEmpty memFirst memFirst_new) (fun _ _ => rfl) (fun _ _ => rfl)
      memSecond_insert)

/-! ## The size along a run -/

theorem memSecond_inv : Inv memSecond 0 [1] [[98]] := by
  obtain ⟨m1, _, _, hr, hI, _⟩ :=
    q_insert_tail_run [98] (q_new_inv memFirst_new) (rfl : memFirst.ele 1 = none)
      (rfl : memFirst.str 11 = none)
  rw [memSecond_insert] at hr
  cases hr
  exact hI

theorem strcmp_eq_of_le_le (a b : List Nat) (h1 : strcmp a b ≤ 0) (h2 : strcmp b a ≤ 0) :
    a = b := by
  induction a generalizing b with
  | nil =>
    cases b with
    | nil => rfl
    | cons y ys => simp [strcmp] at h2
  | cons x xs ih =>
    cases b with
    | nil => simp [strcmp] at h1
    | cons y ys =>
      simp only [strcmp] at h1 h2
      rcases Nat.lt_trichotomy x y with h | h | h
      · have h3 : ¬ y < x := by omega
        simp [h, h3] at h2
      · subst h
        simp only [lt_self_iff_false, if_false] at h1 h2
        rw [ih ys h1 h2]
      · have h3 : ¬ x < y := by omega
        simp [h, h3] at h1

theorem strSorted_perm_eq {l1 l2 : List (List Nat)} (hp : l1.Perm l2) (h1 : StrSorted l1)
    (h2 : StrSorted l2) : l1 = l2 := by
  haveI : IsAntisymm (List Nat) (fun a b => strcmp a b ≤ 0) :=
    ⟨fun a b h1 h2 => strcmp_eq_of_le_le a b h1 h2⟩
  exact List.eq_of_perm_of_sorted hp h1 h2

theorem q_sort_short {m : Mem} {qa : Nat} {nodes : List Nat} {vals : List (List Nat)}
    (hinv : Inv m qa nodes vals) (hlen : nodes.length ≤ 1) (fuel : Nat) :
    q_sort fuel m (some qa) = some m := by
  obtain ⟨q, hq, _, _, hsize⟩ := hinv.chain
  have hcond : ¬ (q.head.isSome = true ∧ q.size > 1) := by
    rintro ⟨_, h⟩
    rw [hsize] at h
    omega
  simp only [q_sort, hq, Option.bind_eq_bind, Option.some_bind, if_neg hcond]

/-- C12: on a queue satisfying the invariants (empty and single-element queues
included), two calls of `q_reverse` return (given fuel of at least the number of
elements) and leave the chain and the strings in their original order, the queue
structure holding the head, tail and size it held before the two calls, and
every element its string; on an absent queue both calls change nothing. -/
theorem q_reverse_twice (m : Mem) (qa : Nat) (nodes : List Nat) (vals : List (List Nat))
    (fuel : Nat) (hinv : Inv m qa nodes vals) (hf : nodes.length ≤ fuel) :
    (q_reverse fuel m none).bind (fun m1 => q_reverse fuel m1 none) = some m ∧
    ∃ m1 m2 q, q_reverse fuel m (some qa) = some m1 ∧
      q_reverse fuel m1 (some qa) = some m2 ∧ Inv m2 qa nodes vals ∧
      m.queue qa = some q ∧ m2.queue qa = some q ∧ ∀ x, m2.valueOf x = m.valueOf x := by
  refine ⟨rfl, ?_⟩
  obtain ⟨m1, hr1, hI1, hsv1, _⟩ := q_reverse_run hinv hf
  obtain ⟨m2, hr2, hI2, hsv2, _⟩ := q_reverse_run hI1 (by simpa using hf)
  rw [List.reverse_reverse, List.reverse_reverse] at hI2
  obtain ⟨q, hq, _⟩ := hinv.chain
  obtain ⟨q2, hq2, _⟩ := hI2.chain
  have h0 := hinv.ends hq
  have h2 := hI2.ends hq2
  have hqq : q2 = q := by
    cases q with
    | mk hd tl sz =>
      cases q2 with
      | mk hd2 tl2 sz2 =>
        simp only at h0 h2
        simp only [queue_t.mk.injEq]
        exact ⟨h2.2.2.1.trans h0.2.2.1.symm, h2.2.2.2.1.trans h0.2.2.2.1.symm,
          h2.2.1.trans h0.2.1.symm⟩
  subst hqq
  exact ⟨m1, m2, q2, hr1, hr2, hI2, hq, hq2, (hsv1.trans hsv2).valueOf⟩

theorem q_reverse_twice_witness :
    (q_reverse 3 memBAC none).bind (fun m1 => q_reverse 3 m1 none) = some memBAC ∧
    ∃ m1 m2 q, q_reverse 3 memBAC (some 0) = some m1 ∧
      q_reverse 3 m1 (some 0) = some m2 ∧ Inv m2 0 [1, 2, 3] [[98], [97], [99]] ∧
      memBAC.queue 0 = some q ∧ m2.queue 0 = some q ∧
      ∀ x, m2.valueOf x = memBAC.valueOf x :=
  q_reverse_twice memBAC 0 [1, 2, 3] [[98], [97], [99]] 3 memBAC_inv (by decide)

/-- C13: on a queue satisfying the invariants, two calls of `q_sort` return (given
fuel beyond the number of elements), and the sequence of strings the queue holds
after the second call is the sequence `vals1` it holds after the first. -/
theorem q_sort_twice (m : Mem) (qa : Nat) (nodes : List Nat) (vals : List (List Nat))
    (fuel : Nat) (hinv : Inv m qa nodes vals) (hf : nodes.length < fuel) :
    ∃ m1 m2 nodes1 nodes2 vals1, q_sort fuel m (some qa) = some m1 ∧
      q_sort fuel m1 (some qa) = some m2 ∧
      Inv m1 qa nodes1 vals1 ∧ Inv m2 qa nodes2 vals1 := by
  obtain ⟨m1, nodes1, hr1, hI1, hp1, hs1, hsv1, _⟩ := q_sort_run hinv hf
  obtain ⟨m2, nodes2, hr2, hI2, hp2, hs2, _, _⟩ := q_sort_run hI1
    (by rw [hp1.length_eq]; exact hf)
  have hvd : nodes2.map m1.valD = nodes2.map m.valD :=
    List.map_congr_left (fun x _ => hsv1.valD x)
  rw [hvd] at hI2 hs2
  have heq : nodes2.map m.valD = nodes1.map m.valD :=
    strSorted_perm_eq (hp2.map _) hs2 hs1
  rw [heq] at hI2
  exact ⟨m1, m2, nodes1, nodes2, _, hr1, hr2, hI1, hI2⟩

theorem q_sort_twice_witness :
    ∃ m1 m2 nodes1 nodes2 vals1, q_sort 4 memBAC (some 0) = some m1 ∧
      q_sort 4 m1 (some 0) = some m2 ∧
      Inv m1 0 nodes1 vals1 ∧ Inv m2 0 nodes2 vals1 :=
  q_sort_twice memBAC 0 [1, 2, 3] [[98], [97], [99]] 4 memBAC_inv (by decide)

/-- C14: `q_sort` on an absent queue, and on a queue satisfying the invariants
that is empty or holds one element, returns the memory it was given: head, tail,
size and every link are what they were, whatever the fuel. -/
theorem q_sort_noop (m : Mem) (qa : Nat) (nodes : List Nat) (vals : List (List Nat))
    (fuel : Nat) (hinv : Inv m qa nodes vals) (hlen : nodes.length ≤ 1) :
    q_sort fuel m none = some m ∧ q_sort fuel m (some qa) = some m :=
  ⟨rfl, q_sort_short hinv hlen fuel⟩

theorem q_sort_noop_witness :
    q_sort 0 memSecond none = some memSecond ∧ q_sort 0 memSecond (some 0) = some memSecond :=
  q_sort_noop memSecond 0 [1] [[98]] 0 memSecond_inv (by decide)

/-- C15: `q_insert_head` and `q_insert_tail` return false on an absent queue; on a
queue satisfying the invariants they return false when the allocation of the
element or of the character array fails, the memory then being the one before the
call (same head, tail, size and elements), and they return true when both
allocations succeed. -/
theorem q_insert_results (m : Mem) (qa : Nat) (nodes : List Nat) (vals : List (List Nat))
    (s : List Nat) (newh news : Option Nat) (hinv : Inv m qa nodes vals)
    (hh : FreshEle m newh) (hs : FreshStr m news) :
    q_insert_head m none s newh news = some (false, m) ∧
    q_insert_tail m none s newh news = some (false, m) ∧
    ((newh = none ∨ news = none) →
      q_insert_head m (some qa) s newh news = some (false, m) ∧
      q_insert_tail m (some qa) s newh news = some (false, m)) ∧
    ((newh ≠ none ∧ news ≠ none) →
      ∃ m1 m2, q_insert_head m (some qa) s newh news = some (true, m1) ∧
        q_insert_tail m (some qa) s newh news = some (true, m2)) := by
  refine ⟨rfl, rfl, fun h => ⟨q_insert_head_fail s hh hs h, q_insert_tail_fail s hh hs h⟩, ?_⟩
  rintro ⟨h1, h2⟩
  cases newh with
  | none => exact absurd rfl h1
  | some a =>
    cases news with
    | none => exact absurd rfl h2
    | some b =>
      obtain ⟨m1, _, _, hr1, _⟩ := q_insert_head_run s hinv (hh a rfl) (hs b rfl)
      obtain ⟨m2, _, _, hr2, _⟩ := q_insert_tail_run s hinv (hh a rfl) (hs b rfl)
      exact ⟨m1, m2, hr1, hr2⟩

theorem q_insert_results_witness :
    q_insert_head memBAC none [100] (some 4) none = some (false, memBAC) ∧
    q_insert_tail memBAC none [100] (some 4) none = some (false, memBAC) ∧
    (((some 4 : Option Nat) = none ∨ (none : Option Nat) = none) →
      q_insert_head memBAC (some 0) [100] (some 4) none = some (false, memBAC) ∧
      q_insert_tail memBAC (some 0) [100] (some 4) none = some (false, memBAC)) ∧
    (((some 4 : Option Nat) ≠ none ∧ (none : Option Nat) ≠ none) →
      ∃ m1 m2, q_insert_head memBAC (some 0) [100] (some 4) none = some (true, m1) ∧
        q_insert_tail memBAC (some 0) [100] (some 4) none = some (true, m2)) :=
  q_insert_results memBAC 0 [1, 2, 3] [[98], [97], [99]] [100] (some 4) none memBAC_inv
    (fun a h => by cases h; rfl) (fun b h => by cases h)

/-! ## Releasing the queue -/

theorem q_free_loop_run (qa : Nat) (nodes : List Nat) :
    ∀ (fuel : Nat) (m : Mem) (q : queue_t),
      m.queue qa = some q → Chain m.ele q.head nodes →
      (∀ x ∈ nodes, ∃ v s, m.ptrOf x = some v ∧ m.str v = some s) →
      (nodes.map m.ptrOf).Nodup → nodes.length < fuel →
      ∃ m1, q_free_loop fuel m qa q.head = some m1 ∧
        m1.queue = Function.update m.queue qa (some ⟨none, q.tail, q.size⟩) ∧
        (∀ x, m1.ele x = if x ∈ nodes then none else m.ele x) ∧
        (∀ v, m1.str v = if some v ∈ nodes.map m.ptrOf then none else m.str v) := by
  induction nodes with
  | nil =>
    intro fuel m q hq hch _ _ hf
    obtain ⟨f, rfl⟩ : ∃ f, fuel = f + 1 := ⟨fuel - 1, by simp at hf; omega⟩
    simp only [Chain, Seg] at hch
    refine ⟨m, by simp [q_free_loop, hch], ?_, by simp, by simp⟩
    have hqq : q = ⟨none, q.tail, q.size⟩ := by
      cases q with
      | mk hd tl sz =>
        simp only at hch
        simp [hch]
    rw [← hqq, ← hq, Function.update_eq_self]
  | cons x rest ih =>
    intro fuel m q hq hch hval hown hf
    obtain ⟨f, rfl⟩ : ∃ f, fuel = f + 1 := ⟨fuel - 1, by simp at hf; omega⟩
    have hnd := List.nodup_cons.mp (Chain_nodup hch)
    obtain ⟨hh, e, he, hrest⟩ := hch
    obtain ⟨v, s, hpx, hsv⟩ := hval x (List.mem_cons_self _ _)
    have hev : e.value = some v := by simpa [Mem.ptrOf, he] using hpx
    rw [List.map_cons, List.nodup_cons] at hown
    have hne : ∀ y ∈ rest, y ≠ x := by
      rintro y hy rfl
      exact hnd.1 hy
    have hptr : ∀ y ∈ rest,
        Mem.ptrOf ⟨Function.update m.queue qa (some ⟨e.next, q.tail, q.size⟩),
          Function.update m.ele x none, Function.update m.str v none⟩ y = m.ptrOf y := by
      intro y hy
      simp [Mem.ptrOf, Function.update_noteq (hne y hy)]
    obtain ⟨m1, hrun, hqu, hele, hstr⟩ := ih f
      ⟨Function.update m.queue qa (some ⟨e.next, q.tail, q.size⟩),
        Function.update m.ele x none, Function.update m.str v none⟩
      ⟨e.next, q.tail, q.size⟩ (by simp)
      (Seg_frame hrest (fun y hy => by simp [Function.update_noteq (hne y hy)]))
      (fun y hy => by
        obtain ⟨w, t, hpy, hsw⟩ := hval y (List.mem_cons_of_mem _ hy)
        refine ⟨w, t, by rw [hptr y hy, hpy], ?_⟩
        have hwv : w ≠ v := by
          rintro rfl
          exact hown.1 (by rw [hpx, ← hpy]; exact List.mem_map_of_mem _ hy)
        simp [Function.update_noteq hwv, hsw])
      (by rw [List.map_congr_left hptr]; exact hown.2)
      (by simp at hf; omega)
    rw [List.map_congr_left hptr] at hstr
    refine ⟨m1, ?_, ?_, ?_, ?_⟩
    · simp only [hh]
      simp [q_free_loop, hq, hh, he, Mem.setHead, hev, free_str, hsv, free_ele]
      simpa using hrun
    · rw [hqu]
      simp
    · intro y
      rw [hele y]
      by_cases hy : y = x
      · subst hy
        simp
      · simp [hy, Function.update_noteq hy]
    · intro w
      rw [hstr w]
      by_cases hw : w = v
      · subst hw
        simp [hpx]
      · have : some w ≠ m.ptrOf x := by
          rw [hpx]
          simpa using hw
        simp [this, Function.update_noteq hw]

theorem q_free_run {m : Mem} {qa : Nat} {nodes : List Nat} {vals : List (List Nat)}
    (hinv : Inv m qa nodes vals) {fuel : Nat} (hf : nodes.length < fuel) :
    ∃ m1, q_free fuel m (some qa) = some m1 ∧
      m1.queue = Function.update m.queue qa none ∧
      (∀ x, m1.ele x = if x ∈ nodes then none else m.ele x) ∧
      (∀ v, m1.str v = if some v ∈ nodes.map m.ptrOf then none else m.str v) := by
  obtain ⟨q, hq, hch, _, _⟩ := hinv.chain
  obtain ⟨m1, hrun, hqu, hele, hstr⟩ := q_free_loop_run qa nodes fuel m q hq hch
    (fun x hx => by
      obtain ⟨_, v, s, _, _, hs, hp, _⟩ := hinv.value_alloc hx
      exact ⟨v, s, hp, hs⟩)
    hinv.owned hf
  refine ⟨⟨Function.update m.queue qa none, m1.ele, m1.str⟩, ?_, rfl, hele, hstr⟩
  simp [q_free, hq, hrun, free_queue, hqu]

/-- C16: on a queue satisfying the invariants, `q_free` returns (given fuel beyond
the number of elements) without a fault, a second release of a block being a
fault of the model; afterwards the queue structure, every element of the chain
and every character array an element points to are released, and nothing else in
memory is changed; on an empty queue the elements and the character arrays of the
memory are those before the call, and on an absent queue the memory is unchanged. -/
theorem q_free_releases (m : Mem) (qa : Nat) (nodes : List Nat) (vals : List (List Nat))
    (fuel : Nat) (hinv : Inv m qa nodes vals) (hf : nodes.length < fuel) :
    q_free fuel m none = some m ∧
    ∃ m1, q_free fuel m (some qa) = some m1 ∧
      m1.queue qa = none ∧ (∀ a, a ≠ qa → m1.queue a = m.queue a) ∧
      (∀ x, m1.ele x = if x ∈ nodes then none else m.ele x) ∧
      (∀ v, m1.str v = if some v ∈ nodes.map m.ptrOf then none else m.str v) ∧
      (nodes = [] → m1.ele = m.ele ∧ m1.str = m.str) := by
  refine ⟨rfl, ?_⟩
  obtain ⟨m1, hrun, hqu, hele, hstr⟩ := q_free_run hinv hf
  refine ⟨m1, hrun, by simp [hqu], fun a ha => by simp [hqu, Function.update_noteq ha],
    hele, hstr, ?_⟩
  rintro rfl
  constructor
  · funext x
    simpa using hele x
  · funext v
    simpa using hstr v

theorem q_free_releases_witness :
    q_free 4 memBAC none = some memBAC ∧
    ∃ m1, q_free 4 memBAC (some 0) = some m1 ∧
      m1.queue 0 = none ∧ (∀ a, a ≠ 0 → m1.queue a = memBAC.queue a) ∧
      (∀ x, m1.ele x = if x ∈ [1, 2, 3] then none else memBAC.ele x) ∧
      (∀ v, m1.str v = if some v ∈ [1, 2, 3].map memBAC.ptrOf then none else memBAC.str v) ∧
      (([1, 2, 3] : List Nat) = [] → m1.ele = memBAC.ele ∧ m1.str = memBAC.str) :=
  q_free_releases memBAC 0 [1, 2, 3] [[98], [97], [99]] 4 memBAC_inv (by decide)

/-! ## Ties in the merge -/

theorem memTie_inv : Inv memTie 0 [1, 2, 3] [[98], [97], [99]] :=
  ⟨⟨⟨some 1, some 3, 3⟩, rfl, ⟨rfl, _, rfl, rfl, _, rfl, rfl, _, rfl, rfl⟩, rfl, rfl⟩, rfl,
    by decide⟩

theorem memTie_left : Chain memTie.ele (some 4) [4] := ⟨rfl, _, rfl, rfl⟩

theorem memTie_right : Chain memTie.ele (some 5) [5] := ⟨rfl, _, rfl, rfl⟩

theorem memTie_values : ∀ x ∈ [4, 5], memTie.valueOf x = some (memTie.valD x) := by
  intro x hx
  simp only [List.mem_cons, List.mem_singleton, List.not_mem_nil, or_false] at hx
  rcases hx with rfl | rfl <;> rfl

theorem strcmp_lt_of_lt_of_le {a b c : List Nat} (h1 : strcmp a b < 0) (h2 : strcmp b c ≤ 0) :
    strcmp a c < 0 := by
  by_contra h
  have h3 := strcmp_le_trans b c a h2 (strcmp_le_of_not_lt h)
  exact (strcmp_le_iff_not_lt a b).mp h3 h1

theorem mem_mergeL (k : Nat → List Nat) {ls rs : List Nat} {x : Nat} :
    x ∈ mergeL k ls rs ↔ x ∈ ls ∨ x ∈ rs := by
  rw [(mergeL_perm k _ ls rs rfl).mem_iff, List.mem_append]

theorem mergeL_tie (k : Nat → List Nat) :
    ∀ (n : Nat) (ls rs : List Nat), ls.length + rs.length = n →
      StrSorted (rs.map k) →
      ∀ l ∈ ls, ∀ r ∈ rs, strcmp (k l) (k r) = 0 → [r, l].Sublist (mergeL k ls rs) := by
  intro n
  induction n with
  | zero =>
    intro ls rs h _ l hl
    have h1 : ls = [] := List.length_eq_zero.mp (by omega)
    subst h1
    cases hl
  | succ n ih =>
    intro ls rs h hsr l hl r hr heq
    cases ls with
    | nil => cases hl
    | cons l0 ls =>
      cases rs with
      | nil => cases hr
      | cons r0 rs =>
        have hsr' := List.pairwise_cons.mp hsr
        by_cases hlt : strcmp (k l0) (k r0) < 0
        · rw [mergeL_cons_lt k ls rs hlt]
          have hl0r : strcmp (k l0) (k r) < 0 := by
            rcases List.mem_cons.mp hr with rfl | hr2
            · exact hlt
            · exact strcmp_lt_of_lt_of_le hlt (hsr'.1 _ (List.mem_map_of_mem k hr2))
          have hl2 : l ∈ ls := by
            rcases List.mem_cons.mp hl with rfl | hl2
            · omega
            · exact hl2
          exact (ih ls (r0 :: rs) (by simp at h ⊢; omega) hsr l hl2 r hr heq).cons l0
        · rw [mergeL_cons_ge k ls rs hlt]
          by_cases hrr : r = r0
          · subst hrr
            exact List.Sublist.cons₂ r
              (List.singleton_sublist.mpr ((mem_mergeL k).mpr (Or.inl hl)))
          · have hr2 : r ∈ rs := by
              rcases List.mem_cons.mp hr with h1 | h1
              · exact absurd h1 hrr
              · exact h1
            exact (ih (l0 :: ls) rs (by simp at h ⊢; omega) hsr'.2 l hl r hr2 heq).cons r0

/-- C17, at a counterexample: the two chains are the single elements 4 (left) and
5 (right), both holding the string "a"; `merge` returns the right element 5 as
head of the chain 5, 4, in which the left element does not come before the right
one. -/
theorem merge_tie_right_first :
    memTie.valueOf 4 = some [97] ∧ memTie.valueOf 5 = some [97] ∧
    strcmp [97] [97] = 0 ∧
    (∃ m1, merge 3 memTie (some 4) (some 5) = some (m1, some 5) ∧
      Chain m1.ele (some 5) [5, 4]) ∧
    ¬ [4, 5].Sublist [5, 4] := by
  refine ⟨rfl, rfl, by decide, ?_, by decide⟩
  obtain ⟨m1, h, hrun, _, _, _, hch⟩ := merge_run memTie.valD 3 memTie_left memTie_right
    (by decide) (fun x hx => memTie_values x (by simp at hx; simp [hx]))
    (fun x hx => memTie_values x (by simp at hx; simp [hx])) (by decide)
  have hge : ¬ strcmp (memTie.valD 4) (memTie.valD 5) < 0 := by decide
  rw [mergeL_cons_ge memTie.valD [] [] hge, mergeL_nil_right] at hch
  have hh : h = some 5 := hch.1
  subst hh
  exact ⟨m1, hrun, hch⟩

/-- C17, amended: `merge` breaks ties in favour of the right chain.  For two
disjoint chains `ls` and `rs` whose elements hold the strings `k`, `merge` returns
the chain `mergeL k ls rs`; whenever the current elements `l` and `r` of the two
chains hold equal strings, `r` is placed next and the merge goes on with `l` still
in front of the left chain; and when the right chain is sorted, every element of
the right chain comes before every element of the left chain holding an equal
string. -/
theorem merge_ties_right_first (k : Nat → List Nat) (fuel : Nat) (m : Mem)
    (left right : Option Nat) (ls rs : List Nat)
    (hl : Chain m.ele left ls) (hr : Chain m.ele right rs)
    (hdis : ∀ x ∈ ls, x ∉ rs) (hvl : ∀ x ∈ ls, m.valueOf x = some (k x))
    (hvr : ∀ x ∈ rs, m.valueOf x = some (k x)) (hf : ls.length + rs.length < fuel)
    (hsr : StrSorted (rs.map k)) :
    (∃ m1 h, merge fuel m left right = some (m1, h) ∧ Chain m1.ele h (mergeL k ls rs)) ∧
    (∀ l r ls1 rs1, strcmp (k l) (k r) = 0 →
      mergeL k (l :: ls1) (r :: rs1) = r :: mergeL k (l :: ls1) rs1) ∧
    (∀ l ∈ ls, ∀ r ∈ rs, strcmp (k l) (k r) = 0 → [r, l].Sublist (mergeL k ls rs)) := by
  obtain ⟨m1, h, hrun, _, _, _, hch⟩ := merge_run k fuel hl hr hdis hvl hvr hf
  refine ⟨⟨m1, h, hrun, hch⟩, ?_, mergeL_tie k _ ls rs rfl hsr⟩
  intro l r ls1 rs1 heq
  exact mergeL_cons_ge k ls1 rs1 (by omega)

theorem merge_ties_right_first_witness :
    (∃ m1 h, merge 3 memTie (some 4) (some 5) = some (m1, h) ∧
      Chain m1.ele h (mergeL memTie.valD [4] [5])) ∧
    (∀ l r ls1 rs1, strcmp (memTie.valD l) (memTie.valD r) = 0 →
      mergeL memTie.valD (l :: ls1) (r :: rs1) = r :: mergeL memTie.valD (l :: ls1) rs1) ∧
    (∀ l ∈ [4], ∀ r ∈ [5], strcmp (memTie.valD l) (memTie.valD r) = 0 →
      [r, l].Sublist (mergeL memTie.valD [4] [5])) :=
  merge_ties_right_first memTie.valD 3 memTie (some 4) (some 5) [4] [5] memTie_left
    memTie_right (by decide) (fun x hx => memTie_values x (by simp at hx; simp [hx]))
    (fun x hx => memTie_values x (by simp at hx; simp [hx])) (by decide)
    (by simp [StrSorted])

/-- C18: for two disjoint chains `ls` and `rs` (either may be empty) whose elements
hold the strings `k`, each sorted non-decreasingly, `merge` returns (given fuel
beyond the number of elements) a chain ending with the terminal link whose first
element is the returned head, which is sorted non-decreasingly and is a
permutation of `ls` followed by `rs`, every element holding the string it held. -/
theorem merge_sorted_perm (k : Nat → List Nat) (fuel : Nat) (m : Mem)
    (left right : Option Nat) (ls rs : List Nat)
    (hl : Chain m.ele left ls) (hr : Chain m.ele right rs)
    (hdis : ∀ x ∈ ls, x ∉ rs) (hvl : ∀ x ∈ ls, m.valueOf x = some (k x))
    (hvr : ∀ x ∈ rs, m.valueOf x = some (k x)) (hf : ls.length + rs.length < fuel)
    (hsl : StrSorted (ls.map k)) (hsr : StrSorted (rs.map k)) :
    ∃ m1 h res, merge fuel m left right = some (m1, h) ∧ Chain m1.ele h res ∧
      h = res.head? ∧ res.Perm (ls ++ rs) ∧
      (res.map k).Pairwise (fun a b => strcmp a b ≤ 0) ∧
      ∀ x, m1.valueOf x = m.valueOf x := by
  obtain ⟨m1, h, hrun, hsv, _, _, hch⟩ := merge_run k fuel hl hr hdis hvl hvr hf
  exact ⟨m1, h, mergeL k ls rs, hrun, hch, Chain_head hch, mergeL_perm k _ ls rs rfl,
    mergeL_sorted k _ ls rs rfl hsl hsr, hsv.valueOf⟩

theorem merge_sorted_perm_witness :
    ∃ m1 h res, merge 3 memTie (some 4) (some 5) = some (m1, h) ∧ Chain m1.ele h res ∧
      h = res.head? ∧ res.Perm ([4] ++ [5]) ∧
      (res.map memTie.valD).Pairwise (fun a b => strcmp a b ≤ 0) ∧
      ∀ x, m1.valueOf x = memTie.valueOf x :=
  merge_sorted_perm memTie.valD 3 memTie (some 4) (some 5) [4] [5] memTie_left
    memTie_right (by decide) (fun x hx => memTie_values x (by simp at hx; simp [hx]))
    (fun x hx => memTie_values x (by simp at hx; simp [hx])) (by decide)
    (by simp [StrSorted]) (by simp [StrSorted])

/-! ## The split step and termination -/

theorem mergeSort_eq_split (f : Nat) (m : Mem) (h : Nat) {he : list_ele_t} {n2 : Nat}
    (hhe : m.ele h = some he) (hn : he.next = some n2) :
    mergeSort (f + 1) m (some h) =
      (mergeSort_split (f + 1) m (some h)).bind (fun r =>
        (mergeSort f r.1 r.2.1).bind (fun r1 =>
          (mergeSort f r1.1 r.2.2).bind (fun r2 => merge (f + 1) r2.1 r1.2 r2.2))) := by
  rw [mergeSort]
  simp only [mergeSort_split, hhe, hn, Option.bind_eq_bind, Option.some_bind]
  cases split_loop (f + 1) m (some h) (some n2) with
  | none => rfl
  | some sp =>
    cases sp with
    | none => rfl
    | some sa =>
      simp only [Option.some_bind]
      cases m.ele sa with
      | none => rfl
      | some se =>
        simp only [Option.some_bind]
        cases m.setNext sa none with
        | none => rfl
        | some m1 => rfl

theorem mergeSort_split_run {m : Mem} {head : Option Nat} {as : List Nat}
    (hch : Chain m.ele head as) (hlen : 2 ≤ as.length) {fuel : Nat}
    (hf : as.length ≤ fuel) :
    ∃ m1 right, mergeSort_split fuel m head = some (m1, head, right) ∧
      Chain m1.ele head (as.take ((as.length + 1) / 2)) ∧
      Chain m1.ele right (as.drop ((as.length + 1) / 2)) ∧
      SameValues m m1 ∧ m1.queue = m.queue ∧ (∀ x, x ∉ as → m1.ele x = m.ele x) := by
  match as, hch, hlen, hf with
  | a :: a2 :: as, hch, _, hf =>
    have hnd := Chain_nodup hch
    obtain ⟨hhead, ea, hea, hrest⟩ := hch
    subst hhead
    have hch : Chain m.ele (some a) (a :: a2 :: as) := ⟨rfl, ea, hea, hrest⟩
    have hsplit := split_loop_run fuel m (some a) ea.next (a :: a2 :: as) (a2 :: as)
      hch hrest (by simp) (by simp at hf ⊢; omega)
    have hidx : ((a :: a2 :: as).length + 1) / 2 = (a2 :: as).length / 2 + 1 := by
      simp only [List.length_cons]
      omega
    rw [hidx]
    set i := (a2 :: as).length / 2 with hi
    have hilt : i < (a :: a2 :: as).length := by
      simp only [List.length_cons] at hi ⊢
      omega
    have hget : (a :: a2 :: as).get? i = some ((a :: a2 :: as).get ⟨i, hilt⟩) :=
      List.get?_eq_get hilt
    set sa := (a :: a2 :: as).get ⟨i, hilt⟩ with hsa
    set L := (a :: a2 :: as).take (i + 1) with hL
    set R := (a :: a2 :: as).drop (i + 1) with hR
    have hLR : L ++ R = a :: a2 :: as := List.take_append_drop _ _
    have hLeq : L = (a :: a2 :: as).take i ++ [sa] := by
      have hget2 : (a :: a2 :: as)[i]? = some sa := by
        rw [← List.get?_eq_getElem?]
        exact hget
      rw [hL, List.take_succ, hget2]
      rfl
    have hndLR : (L ++ R).Nodup := by rw [hLR]; exact hnd
    have hndL := (List.nodup_append.mp hndLR).1
    have hdisj : ∀ x ∈ L, x ∉ R := fun x hx hxr =>
      (List.nodup_append.mp hndLR).2.2 hx hxr
    have hsaL : sa ∈ L := by rw [hLeq]; simp
    have hsaT : sa ∉ (a :: a2 :: as).take i := by
      intro h
      rw [hLeq] at hndL
      exact (List.nodup_append.mp hndL).2.2 h (List.mem_singleton_self _)
    have hch2 : Chain m.ele (some a) (L ++ R) := by rw [hLR]; exact hch
    obtain ⟨mid, hsegL, hchR⟩ := Seg_append.mp hch2
    rw [hLeq] at hsegL
    obtain ⟨se, hse, hsenext, hcut⟩ := Seg_setLast hsegL hsaT
    obtain ⟨m', hm'⟩ : ∃ m', m.setNext sa none = some m' := by simp [Mem.setNext, hse]
    obtain ⟨hsv, hqu, e0, he0, hele⟩ := setNext_sameValues hm'
    rw [hse] at he0
    cases he0
    have hchL' : Chain m'.ele (some a) L := by
      rw [hele, hLeq]
      exact hcut none
    have hchR' : Chain m'.ele mid R := by
      refine Seg_frame hchR (fun x hx => ?_)
      rw [hele, Function.update_noteq]
      intro hxs
      rw [hxs] at hx
      exact hdisj sa hsaL hx
    refine ⟨m', mid, ?_, hchL', hchR', hsv, hqu, ?_⟩
    · have hget2 : (a :: a2 :: as)[i]? = some sa := by
        rw [← List.get?_eq_getElem?]
        exact hget
      simp [mergeSort_split, hea, hsplit, hget2, hse, hm', hsenext]
    · intro x hx
      rw [hele, Function.update_noteq]
      intro hxs
      rw [hxs, ← hLR] at hx
      exact hx (List.mem_append_left _ hsaL)

/-- C20: on a chain `as` of `n` elements, `n` at least two, the split step of
`mergeSort` returns (given fuel `n`) a memory in which `head` starts the chain of
the first `(n + 1) / 2` elements of `as` and the returned right pointer starts
the chain of the remaining `n / 2` elements, both ending with the terminal link;
the left chain followed by the right one is `as`, and `mergeSort` is this step
followed by the two recursive calls and `merge`. -/
theorem mergeSort_split_halves (m : Mem) (head : Option Nat) (as : List Nat) (fuel : Nat)
    (hch : Chain m.ele head as) (hlen : 2 ≤ as.length) (hf : as.length ≤ fuel) :
    ∃ m1 right L R, mergeSort_split fuel m head = some (m1, head, right) ∧
      Chain m1.ele head L ∧ Chain m1.ele right R ∧
      L = as.take ((as.length + 1) / 2) ∧ R = as.drop ((as.length + 1) / 2) ∧
      L.length = (as.length + 1) / 2 ∧ R.length = as.length / 2 ∧ L ++ R = as ∧
      mergeSort (fuel + 1) m head =
        (mergeSort_split (fuel + 1) m head).bind (fun r =>
          (mergeSort fuel r.1 r.2.1).bind (fun r1 =>
            (mergeSort fuel r1.1 r.2.2).bind (fun r2 => merge (fuel + 1) r2.1 r1.2 r2.2))) := by
  obtain ⟨m1, right, hrun, hL, hR, _⟩ := mergeSort_split_run hch hlen hf
  refine ⟨m1, right, _, _, hrun, hL, hR, rfl, rfl, ?_, ?_, List.take_append_drop _ _, ?_⟩
  · rw [List.length_take]
    omega
  · rw [List.length_drop]
    omega
  · match as, hch, hlen with
    | a :: a2 :: as, hch, _ =>
      obtain ⟨hhead, ea, hea, hrest⟩ := hch
      subst hhead
      exact mergeSort_eq_split fuel m a hea hrest.1

theorem mergeSort_split_halves_witness :
    ∃ m1 right L R, mergeSort_split 3 memTie (some 1) = some (m1, some 1, right) ∧
      Chain m1.ele (some 1) L ∧ Chain m1.ele right R ∧
      L = [1, 2, 3].take (([1, 2, 3].length + 1) / 2) ∧
      R = [1, 2, 3].drop (([1, 2, 3].length + 1) / 2) ∧
      L.length = ([1, 2, 3].length + 1) / 2 ∧ R.length = [1, 2, 3].length / 2 ∧
      L ++ R = [1, 2, 3] ∧
      mergeSort (3 + 1) memTie (some 1) =
        (mergeSort_split (3 + 1) memTie (some 1)).bind (fun r =>
          (mergeSort 3 r.1 r.2.1).bind (fun r1 =>
            (mergeSort 3 r1.1 r.2.2).bind (fun r2 => merge (3 + 1) r2.1 r1.2 r2.2))) :=
  mergeSort_split_halves memTie (some 1) [1, 2, 3] 3
    ⟨rfl, _, rfl, rfl, _, rfl, rfl, _, rfl, rfl⟩ (by decide) (by decide)

/-- C19: with fuel one above the number of elements every loop and the recursion
return.  On a queue satisfying the invariants `q_sort` returns, and `mergeSort`
returns on its chain; when the chain has `n` elements, `n` at least two, the split
step returns two chains that are both non-empty and shorter than `n`, on which
the recursive calls are made; and the loop of `merge` returns on two disjoint
chains with fuel one above their total number of elements, each turn of the loop
taking one element. -/
theorem sorting_terminates (k : Nat → List Nat) (m : Mem) (qa : Nat) (nodes : List Nat)
    (vals : List (List Nat)) (left right : Option Nat) (ls rs : List Nat)
    (hinv : Inv m qa nodes vals)
    (hl : Chain m.ele left ls) (hr : Chain m.ele right rs)
    (hdis : ∀ x ∈ ls, x ∉ rs) (hvl : ∀ x ∈ ls, m.valueOf x = some (k x))
    (hvr : ∀ x ∈ rs, m.valueOf x = some (k x)) :
    (∃ m1, q_sort (nodes.length + 1) m (some qa) = some m1) ∧
    (∃ q r, m.queue qa = some q ∧ mergeSort (nodes.length + 1) m q.head = some r) ∧
    (2 ≤ nodes.length → ∃ q m1 p L R, m.queue qa = some q ∧
      mergeSort_split nodes.length m q.head = some (m1, q.head, p) ∧
      Chain m1.ele q.head L ∧ Chain m1.ele p R ∧ L ++ R = nodes ∧
      0 < L.length ∧ L.length < nodes.length ∧ 0 < R.length ∧ R.length < nodes.length) ∧
    (∃ m1, merge_loop (ls.length + rs.length + 1) m left right = some m1) := by
  obtain ⟨q, hq, hch, _, _⟩ := hinv.chain
  have hv : ∀ x ∈ nodes, m.valueOf x = some (m.valD x) := by
    intro x hx
    obtain ⟨_, _, s, _, _, _, _, hval⟩ := hinv.value_alloc hx
    simp [Mem.valD, hval]
  refine ⟨?_, ?_, ?_, ?_⟩
  · obtain ⟨m1, _, hrun, _⟩ := q_sort_run hinv (Nat.lt_succ_self nodes.length)
    exact ⟨m1, hrun⟩
  · obtain ⟨m1, h, _, hrun, _⟩ :=
      mergeSort_run m.valD (nodes.length + 1) m q.head nodes hch hv (Nat.lt_succ_self _)
    exact ⟨q, (m1, h), hq, hrun⟩
  · intro hlen
    obtain ⟨m1, p, hrun, hL, hR, _⟩ := mergeSort_split_run hch hlen (Nat.le_refl _)
    refine ⟨q, m1, p, _, _, hq, hrun, hL, hR, List.take_append_drop _ _, ?_, ?_, ?_, ?_⟩
    · rw [List.length_take]
      omega
    · rw [List.length_take]
      omega
    · rw [List.length_drop]
      omega
    · rw [List.length_drop]
      omega
  · obtain ⟨m1, hrun, _⟩ := merge_loop_run k (ls.length + rs.length + 1) m left right ls rs
      hl hr hdis hvl hvr (Nat.lt_succ_self _)
    exact ⟨m1, hrun⟩

theorem sorting_terminates_witness :
    (∃ m1, q_sort ([1, 2, 3].length + 1) memTie (some 0) = some m1) ∧
    (∃ q r, memTie.queue 0 = some q ∧
      mergeSort ([1, 2, 3].length + 1) memTie q.head = some r) ∧
    (2 ≤ [1, 2, 3].length → ∃ q m1 p L R, memTie.queue 0 = some q ∧
      mergeSort_split [1, 2, 3].length memTie q.head = some (m1, q.head, p) ∧
      Chain m1.ele q.head L ∧ Chain m1.ele p R ∧ L ++ R = [1, 2, 3] ∧
      0 < L.length ∧ L.length < [1, 2, 3].length ∧
      0 < R.length ∧ R.length < [1, 2, 3].length) ∧
    (∃ m1, merge_loop ([4].length + [5].length + 1) memTie (some 4) (some 5) = some m1) :=
  sorting_terminates memTie.valD memTie 0 [1, 2, 3] [[98], [97], [99]] (some 4) (some 5)
    [4] [5] memTie_inv memTie_left memTie_right (by decide)
    (fun x hx => memTie_values x (by simp at hx; simp [hx]))
    (fun x hx => memTie_values x (by simp at hx; simp [hx]))

end Lab0
